import Mathlib

/-!
Verification development for the Expense-Control-Unit-Converter repository
(`src/convert.py`).  The Python program is shallowly embedded: timestamps are
modelled as `Int` seconds since the Unix epoch (UTC instants; `datetime`
objects produced by the pipeline are always timezone-aware UTC), Python
`Decimal` amounts as `Rat`, and the fallible row parser as an `Except`-valued
function.  String-processing primitives (`str.split`, `str.replace`,
`int(...)`, `Decimal(...)`, `json.dumps` layout, `isoformat`) are modelled
character-list by character-list from their CPython semantics at the fidelity
the program exercises; every modelling choice is recorded in the doc comment
of the corresponding definition.
-/

namespace ECU

/-- Timestamps: seconds since the Unix epoch, as a UTC instant.  Python
`datetime` comparison on aware datetimes is comparison of instants, which is
`Int` order here. -/
abbrev DT := Int

/-! ## Character-list utilities modelling Python string primitives -/

/-- ASCII whitespace recognised by Python's `str.strip` (the model is
restricted to the ASCII whitespace characters the program can meet):
space, tab, newline, carriage return, vertical tab, form feed. -/
def isWs (c : Char) : Bool :=
  c.toNat = 32 ∨ c.toNat = 9 ∨ c.toNat = 10 ∨ c.toNat = 13 ∨ c.toNat = 11 ∨ c.toNat = 12

/-- Strip leading and trailing whitespace, as Python `str.strip()`. -/
def stripWs (l : List Char) : List Char :=
  ((l.dropWhile isWs).reverse.dropWhile isWs).reverse

/-- Model of Python `str.split(sep)` for a one-character separator: no merging
of adjacent separators, `"".split(sep) == [""]`. -/
def splitChar (sep : Char) : List Char → List (List Char)
  | [] => [[]]
  | c :: r =>
      if c = sep then [] :: splitChar sep r
      else
        match splitChar sep r with
        | [] => [[c]]
        | g :: gs => (c :: g) :: gs

def isAsciiDigit (c : Char) : Bool := 48 ≤ c.toNat ∧ c.toNat ≤ 57

def allDigits (l : List Char) : Bool := l.all isAsciiDigit

/-- Decimal value of a digit string, most significant digit first. -/
def natOfDigits (l : List Char) : Nat :=
  l.foldl (fun a c => 10 * a + (c.toNat - 48)) 0

/-- Leading sign of a Python numeric literal: returns (isNegative, rest). -/
def takeSign : List Char → Bool × List Char
  | [] => (false, [])
  | c :: r =>
      if c = '-' then (true, r)
      else if c = '+' then (false, r)
      else (false, c :: r)

/-- Split at the first character satisfying `p`: returns the part before and,
when a split character exists, the part after it. -/
def splitFirst (p : Char → Bool) : List Char → List Char × Option (List Char)
  | [] => ([], none)
  | c :: r =>
      if p c then ([], some r)
      else
        let (a, b) := splitFirst p r
        (c :: a, b)

/-! ## Model of Python `int(str)` -/

/-- Digit run with Python's underscore rule for `int`: an underscore must sit
between two digits. To be called with a digit as head. -/
def intDigitsAux : List Char → Nat → Option Nat
  | [], acc => some acc
  | '_' :: c :: r, acc =>
      if isAsciiDigit c then intDigitsAux r (10 * acc + (c.toNat - 48)) else none
  | c :: r, acc =>
      if isAsciiDigit c then intDigitsAux r (10 * acc + (c.toNat - 48)) else none

/-- Model of Python `int(s)` for ASCII inputs: optional surrounding
whitespace, optional sign, nonempty digit run with grouping underscores.
(Non-ASCII digits accepted by CPython are outside the model.) -/
def pyInt (s : String) : Option Int :=
  let l := stripWs s.data
  let (neg, rest) := takeSign l
  match rest with
  | [] => none
  | c :: _ =>
      if isAsciiDigit c then
        (intDigitsAux rest 0).map (fun n => if neg then -(n : Int) else (n : Int))
      else none

/-! ## Model of Python `Decimal(str)` -/

/-- `10 ^ e` over `Rat` for an integer exponent. -/
def ratPow10 (e : Int) : Rat :=
  if 0 ≤ e then ((10 : Rat) ^ e.toNat) else ((10 : Rat) ^ (-e).toNat)⁻¹

/-- The optional exponent part of a decimal literal: absent means `10^0`. -/
def parseExp : Option (List Char) → Option Int
  | none => some 0
  | some ecs =>
      match takeSign ecs with
      | (eneg, ed) =>
          if ed ≠ [] ∧ allDigits ed then
            some (if eneg then -(natOfDigits ed : Int) else (natOfDigits ed : Int))
          else none

/-- The value of a decimal literal from its parts. -/
def decSigned (neg : Bool) (ip fp : List Char) (ex : Int) : Rat :=
  let mag : Rat :=
    ((natOfDigits ip : Rat) + (natOfDigits fp : Rat) / (10 : Rat) ^ fp.length)
      * ratPow10 ex
  if neg then -mag else mag

/-- The decimal-literal grammar after whitespace/underscore removal:
optional sign, integer and/or fractional digits, optional exponent. -/
def pyDecimalCore (l1 : List Char) : Option Rat :=
  match takeSign l1 with
  | (neg, l2) =>
      match splitFirst (fun c => c = 'e' ∨ c = 'E') l2 with
      | (mant, expPart) =>
          match splitFirst (fun c => c = '.') mant with
          | (ip, fpOpt) =>
              match parseExp expPart with
              | none => none
              | some ex =>
                  if allDigits ip ∧ allDigits (fpOpt.getD []) ∧
                      (ip ≠ [] ∨ fpOpt.getD [] ≠ []) then
                    some (decSigned neg ip (fpOpt.getD []) ex)
                  else none

/-- Model of Python `decimal.Decimal(s)` restricted to finite numeric strings:
optional surrounding whitespace, underscores removed, optional sign, integer
and/or fractional digits, optional decimal exponent.  The special values
`NaN`/`Infinity` accepted by CPython are outside the model (amounts are
rationals), as are non-ASCII digits. -/
def pyDecimal (s : String) : Option Rat :=
  pyDecimalCore ((stripWs s.data).filter (fun c => c ≠ '_'))

/-! ## Proleptic Gregorian calendar (Python `datetime` is proleptic Gregorian) -/

def isLeap (y : Int) : Bool := y % 4 = 0 ∧ (y % 100 ≠ 0 ∨ y % 400 = 0)

def daysInMonth (y m : Int) : Int :=
  if m = 1 then 31 else if m = 2 then (if isLeap y then 29 else 28)
  else if m = 3 then 31 else if m = 4 then 30 else if m = 5 then 31
  else if m = 6 then 30 else if m = 7 then 31 else if m = 8 then 31
  else if m = 9 then 30 else if m = 10 then 31 else if m = 11 then 30
  else 31

/-- Days since 1970-01-01 of a civil date (Howard Hinnant's algorithm). -/
def daysFromCivil (y m d : Int) : Int :=
  let y' := if m ≤ 2 then y - 1 else y
  let era := Int.fdiv y' 400
  let yoe := y' - era * 400
  let doy := Int.fdiv (153 * (m + (if m > 2 then -3 else 9)) + 2) 5 + d - 1
  let doe := yoe * 365 + Int.fdiv yoe 4 - Int.fdiv yoe 100 + doy
  era * 146097 + doe - 719468

/-- Civil date of a day count since 1970-01-01 (inverse of `daysFromCivil`). -/
def civilFromDays (z0 : Int) : Int × Int × Int :=
  let z := z0 + 719468
  let era := Int.fdiv z 146097
  let doe := z - era * 146097
  let yoe := Int.fdiv (doe - Int.fdiv doe 1460 + Int.fdiv doe 36524 - Int.fdiv doe 146096) 365
  let y := yoe + era * 400
  let doy := doe - (365 * yoe + Int.fdiv yoe 4 - Int.fdiv yoe 100)
  let mp := Int.fdiv (5 * doy + 2) 153
  let d := doy - Int.fdiv (153 * mp + 2) 5 + 1
  let m := mp + (if mp < 10 then 3 else -9)
  (if m ≤ 2 then y + 1 else y, m, d)

/-- The argument validation performed by the `datetime(...)` constructor. -/
def validCivil (y m d h mi s : Int) : Bool :=
  1 ≤ y ∧ y ≤ 9999 ∧ 1 ≤ m ∧ m ≤ 12 ∧ 1 ≤ d ∧ d ≤ daysInMonth y m ∧
  0 ≤ h ∧ h < 24 ∧ 0 ≤ mi ∧ mi < 60 ∧ 0 ≤ s ∧ s < 60

/-- Seconds since the epoch of a civil tuple read as a UTC time. -/
def civilToEpochSecs (y m d h mi s : Int) : Int :=
  daysFromCivil y m d * 86400 + h * 3600 + mi * 60 + s

/-! ## The `America/Edmonton` timezone model

Model of the tz database entry used by `ZoneInfo("America/Edmonton")`:
standard time UTC-07:00 (MST), daylight time UTC-06:00 (MDT).  The DST rule
eras (tz database rules `Edm` until 1987, `Canada` afterwards):
from 2007 on, DST runs from the second Sunday of March to the first Sunday
of November; in 1987–2006 from the first Sunday of April to the last Sunday
of October; in 1972–1986 from the last Sunday of April to the last Sunday of
October; in 1948–1971 the zone observed no DST at all.  Each transition
happens at 02:00 wall time, so in wall-clock terms with `fold=0` (PEP 495: a
time in the spring-forward gap resolves with the pre-transition offset, an
ambiguous fall-back time with the earlier offset) the civil times carrying
the MDT offset are exactly those in `[start Sunday 03:00, end Sunday 02:00)`.
Years up to 1947 (early, wartime and LMT rules) are modelled as permanent
standard time; the theorems that depend on seasonal rules are stated and
witnessed within the faithfully modelled era (civil year at least 1948). -/

/-- Day of week of a day count: `0` = Thursday (1970-01-01), Sunday = `3`. -/
def dowOfDays (z : Int) : Int := Int.fmod z 7

def isSundayCivil (y m d : Int) : Bool := dowOfDays (daysFromCivil y m d) = 3

/-- Day of month of the second Sunday of March. -/
def secondSundayMarch (y : Int) : Int :=
  ((((List.range 7).map (fun k => (8 : Int) + k)).find? (fun d => isSundayCivil y 3 d)).getD 8)

/-- Day of month of the first Sunday of November. -/
def firstSundayNov (y : Int) : Int :=
  ((((List.range 7).map (fun k => (1 : Int) + k)).find? (fun d => isSundayCivil y 11 d)).getD 1)

/-- Day of month of the first Sunday of April. -/
def firstSundayApril (y : Int) : Int :=
  ((((List.range 7).map (fun k => (1 : Int) + k)).find? (fun d => isSundayCivil y 4 d)).getD 1)

/-- Day of month of the last Sunday of April (April has 30 days). -/
def lastSundayApril (y : Int) : Int :=
  ((((List.range 7).map (fun k => (30 : Int) - k)).find? (fun d => isSundayCivil y 4 d)).getD 30)

/-- Day of month of the last Sunday of October (October has 31 days). -/
def lastSundayOctober (y : Int) : Int :=
  ((((List.range 7).map (fun k => (31 : Int) - k)).find? (fun d => isSundayCivil y 10 d)).getD 31)

/-- Is the civil wall-clock time in the MDT (daylight) window of its year's
rule era: `[2nd Sun Mar 03:00, 1st Sun Nov 02:00)` from 2007,
`[1st Sun Apr 03:00, last Sun Oct 02:00)` in 1987–2006,
`[last Sun Apr 03:00, last Sun Oct 02:00)` in 1972–1986, never before 1972. -/
def edmontonIsDST (y m d h mi : Int) : Bool :=
  let civ := daysFromCivil y m d * 1440 + h * 60 + mi
  if 2007 ≤ y then
    daysFromCivil y 3 (secondSundayMarch y) * 1440 + 180 ≤ civ ∧
      civ < daysFromCivil y 11 (firstSundayNov y) * 1440 + 120
  else if 1987 ≤ y then
    daysFromCivil y 4 (firstSundayApril y) * 1440 + 180 ≤ civ ∧
      civ < daysFromCivil y 10 (lastSundayOctober y) * 1440 + 120
  else if 1972 ≤ y then
    daysFromCivil y 4 (lastSundayApril y) * 1440 + 180 ≤ civ ∧
      civ < daysFromCivil y 10 (lastSundayOctober y) * 1440 + 120
  else false

/-- UTC offset, in seconds, of `America/Edmonton` at a civil wall-clock time
(negative: west of Greenwich). -/
def edmontonOffsetSecs (y m d h mi : Int) : Int :=
  if edmontonIsDST y m d h mi then -21600 else -25200

/-- Model of `datetime(y, m, d, h, mi, s, tzinfo=ZoneInfo("America/Edmonton"))
.astimezone(ZoneInfo("UTC"))`: `none` when the constructor raises, otherwise
the UTC instant obtained by subtracting the zone's offset. -/
def mkEdmontonUTC (y m d h mi s : Int) : Option DT :=
  if validCivil y m d h mi s then
    some (civilToEpochSecs y m d h mi s - edmontonOffsetSecs y m d h mi)
  else none

/-! ## Data model (`Category`, `Transaction`, `Transactions`) -/

structure Category where
  name : String
  created_at : Option DT
deriving DecidableEq

structure Transaction where
  created_at : DT
  amount : Rat
  category : Category
  notes : String
deriving DecidableEq

/-- The ledger: the ordered list held by the Python `Transactions` object.
The parser creates one fresh `Category` instance per transaction, so a
category instance is modelled as the per-transaction `category` field. -/
abbrev Transactions := List Transaction

/-! ## Row parsing (`parse_expense_log` body, lines 141-176) -/

/-- The exception site inside the per-row `try` block.  The Python code
prints the exception's message; the model records which statement raised. -/
inductive RowErr where
  | missingField (k : Nat)
  | badDateSplit
  | badTimeSplit
  | badIntLiteral
  | badCivil
  | badAmountSplit
  | badDecimalLiteral
deriving DecidableEq

/-- Lines 162-168: `negative_symbol, amount_string = row[2].split("$")`;
`is_negative = (negative_symbol == "-")`; commas removed; `Decimal(...)`
times `-1` or `1`. -/
def parseAmountE (s : String) : Except RowErr Rat :=
  match splitChar '$' s.data with
  | [negSym, amtS] =>
      match pyDecimal ⟨amtS.filter (fun c => c ≠ ',')⟩ with
      | some v => .ok (v * (if negSym = ['-'] then -1 else 1))
      | none => .error .badDecimalLiteral
  | _ => .error .badAmountSplit

def parseAmount (s : String) : Option Rat := (parseAmountE s).toOption

/-- The body of the per-row `try` block (lines 144-173): any failure of any
sub-step is the exception the enclosing handler catches. `second` is the
literal `"00"`, i.e. `0`. -/
def parseRow (row : List String) : Except RowErr Transaction :=
  match row.get? 0 with
  | none => .error (.missingField 0)
  | some dateStr =>
    match splitChar '/' dateStr.data with
    | [dayS, monthS, yearS] =>
      match row.get? 1 with
      | none => .error (.missingField 1)
      | some timeStr =>
        match splitChar ':' timeStr.data with
        | [hourS, minuteS] =>
          match pyInt ⟨yearS⟩, pyInt ⟨monthS⟩, pyInt ⟨dayS⟩,
                pyInt ⟨hourS⟩, pyInt ⟨minuteS⟩ with
          | some y, some mo, some d, some h, some mi =>
            match mkEdmontonUTC (2000 + y) mo d h mi 0 with
            | none => .error .badCivil
            | some ts =>
              match row.get? 2 with
              | none => .error (.missingField 2)
              | some amtStr =>
                match parseAmountE amtStr with
                | .error e => .error e
                | .ok amount =>
                  match row.get? 3 with
                  | none => .error (.missingField 3)
                  | some cat =>
                    match row.get? 4 with
                    | none => .error (.missingField 4)
                    | some notes =>
                      .ok ⟨ts, amount, ⟨cat, none⟩, notes⟩
          | _, _, _, _, _ => .error .badIntLiteral
        | _ => .error .badTimeSplit
    | _ => .error .badDateSplit

/-- The `for i, row in enumerate(csv_reader)` loop: row 0 skipped
unconditionally, a parse failure appends a diagnostic `(i, reason)` to the
side channel (the model of `print(...)` to stdout) and continues. -/
def parseLoopAux : List (List String) → Nat → Transactions → List (Nat × RowErr) →
    Transactions × List (Nat × RowErr)
  | [], _, ts, ds => (ts, ds)
  | row :: rest, i, ts, ds =>
      if i = 0 then parseLoopAux rest (i + 1) ts ds
      else
        match parseRow row with
        | .ok t => parseLoopAux rest (i + 1) (ts ++ [t]) ds
        | .error e => parseLoopAux rest (i + 1) ts (ds ++ [(i, e)])

/-- `parse_expense_log`, with the file abstracted to its `csv.reader` row
list (CSV tokenisation and the existence check on the path are outside the
row-level model).  Returns the ledger and the emitted diagnostics. -/
def parse_expense_log (rows : List (List String)) :
    Transactions × List (Nat × RowErr) :=
  parseLoopAux rows 0 [] []

/-! ## Ledger aggregation (`Transactions.set_default_category_created_ats`) -/

/-- Python `dict` lookup on the insertion-ordered association list that models
`category_earliest_transactions`. -/
def lookupName : List (String × DT) → String → Option DT
  | [], _ => none
  | (k, v) :: r, n => if k = n then some v else lookupName r n

/-- In-place value update of an existing key (`d[k] = v` when `k in d`),
keeping insertion order. -/
def updateName : List (String × DT) → String → DT → List (String × DT)
  | [], _, _ => []
  | (k, w) :: r, n, v => (if k = n then (k, v) else (k, w)) :: updateName r n v

/-- The first loop of `set_default_category_created_ats` (lines 95-100):
keep, per category name, the earliest transaction `created_at`; a missing key
(`KeyError`) inserts the current value at the end of the dict. -/
def buildEarliest : List Transaction → List (String × DT) → List (String × DT)
  | [], m => m
  | t :: ts, m =>
      match lookupName m t.category.name with
      | some cur =>
          buildEarliest ts
            (if t.created_at < cur then updateName m t.category.name t.created_at
             else m)
      | none => buildEarliest ts (m ++ [(t.category.name, t.created_at)])

/-- The assignment of line 103 for one transaction:
`transaction.category.created_at = category_earliest_transactions[...name]`. -/
def updF (m : List (String × DT)) (t : Transaction) : Transaction :=
  { t with category := { t.category with created_at := lookupName m t.category.name } }

/-- `set_default_category_created_ats` (lines 93-103): the second loop
assigns the computed per-name minimum onto the category instance of every
transaction.  Each parsed transaction holds its own `Category` instance, so
the mutation is modelled per transaction. -/
def set_default_category_created_ats (l : Transactions) : Transactions :=
  l.map (updF (buildEarliest l []))

/-! ## Serialization (`Transactions.__repr__`, lines 105-133) -/

/-- One entry of the serialized `transactions` array: the first matching
category dict (name and derived timestamp), the note text, the amount, and
the transaction timestamp. -/
structure TxRow where
  catName : String
  catAt : DT
  descr : String
  amount : Rat
  txAt : DT
deriving DecidableEq

/-- Decimal digits of a `Nat`, most significant first (fuel-structured so the
kernel can evaluate it). -/
def digitChar (n : Nat) : Char :=
  match n % 10 with
  | 0 => '0' | 1 => '1' | 2 => '2' | 3 => '3' | 4 => '4'
  | 5 => '5' | 6 => '6' | 7 => '7' | 8 => '8' | _ => '9'

def natDigitsAux : Nat → Nat → List Char
  | 0, _ => []
  | fuel + 1, n =>
      if n < 10 then [digitChar n]
      else natDigitsAux fuel (n / 10) ++ [digitChar (n % 10)]

def natDigits (n : Nat) : List Char := natDigitsAux (n + 1) n

def padLeftDigits (w : Nat) (ds : List Char) : List Char :=
  List.replicate (w - ds.length) '0' ++ ds

def pad2 (n : Nat) : List Char := padLeftDigits 2 (natDigits n)

def pad4 (n : Nat) : List Char := padLeftDigits 4 (natDigits n)

def strC (s : String) : List Char := s.data

/-- `datetime.isoformat()` of an aware UTC instant, without the trailing
`+00:00` the Python method appends (the renderer appends it literally).
Pipeline datetimes carry no sub-second part, so the seconds-resolution form
`YYYY-MM-DDTHH:MM:SS` is the one produced. -/
def isoUTC (t : DT) : List Char :=
  let days := Int.fdiv t 86400
  let sod := Int.fmod t 86400
  let c := civilFromDays days
  pad4 c.1.toNat ++ '-' :: pad2 c.2.1.toNat ++ '-' :: pad2 c.2.2.toNat ++
    'T' :: pad2 (Int.fdiv sod 3600).toNat ++ ':' :: pad2 (Int.fdiv (Int.fmod sod 3600) 60).toNat ++
    ':' :: pad2 (Int.fmod sod 60).toNat

def hexDigit (n : Nat) : Char :=
  match n % 16 with
  | 0 => '0' | 1 => '1' | 2 => '2' | 3 => '3' | 4 => '4' | 5 => '5'
  | 6 => '6' | 7 => '7' | 8 => '8' | 9 => '9' | 10 => 'a' | 11 => 'b'
  | 12 => 'c' | 13 => 'd' | 14 => 'e' | _ => 'f'

def hex4 (n : Nat) : List Char :=
  [hexDigit (n / 4096), hexDigit (n / 256), hexDigit (n / 16), hexDigit n]

/-- `json.dumps` escaping of one character (default `ensure_ascii=True`):
quote, backslash, the short control escapes, `\uXXXX` for other characters
outside `0x20..0x7e`, surrogate pairs above `0xFFFF`. -/
def escapeChar (c : Char) : List Char :=
  if c = '"' then ['\\', '"']
  else if c = '\\' then ['\\', '\\']
  else if c = '\n' then ['\\', 'n']
  else if c = '\t' then ['\\', 't']
  else if c = '\r' then ['\\', 'r']
  else if c.toNat = 8 then ['\\', 'b']
  else if c.toNat = 12 then ['\\', 'f']
  else if c.toNat < 32 ∨ 126 < c.toNat then
    if c.toNat < 65536 then '\\' :: 'u' :: hex4 c.toNat
    else
      ('\\' :: 'u' :: hex4 (55296 + (c.toNat - 65536) / 1024)) ++
      ('\\' :: 'u' :: hex4 (56320 + (c.toNat - 65536) % 1024))
  else [c]

def jsonEscape (l : List Char) : List Char := (l.map escapeChar).flatten

def intSignDigits (n : Int) : List Char :=
  (if n < 0 then ['-'] else []) ++ natDigits n.natAbs

/-- Rendering of `float(transaction.amount)` inside `json.dumps`.  Python
converts the exact `Decimal` to a double and prints its shortest repr; the
IEEE-754 step is abstracted here as exact decimal rendering when the
denominator divides a power of ten (which is every value a parsed `Decimal`
amount can take) and a scaled-integer rendering otherwise.  No claim depends
on the digits of this field; only that it contains no quote and no
`+00:00`. -/
def ratRepr (q : Rat) : List Char :=
  let sign : List Char := if q.num < 0 then ['-'] else []
  if q.den = 1 then sign ++ natDigits q.num.natAbs ++ strC ".0"
  else
    match (List.range 31).find? (fun k => 10 ^ k % q.den = 0) with
    | some k =>
        let m := q.num.natAbs * (10 ^ k / q.den)
        sign ++ natDigits (m / 10 ^ k) ++ '.' :: padLeftDigits k (natDigits (m % 10 ^ k))
    | none =>
        sign ++ natDigits ((q.num.natAbs * 10 ^ 17) / q.den) ++ strC "e-17"

/-- The replaced pattern of line 130. -/
def patPlus : List Char := ['+', '0', '0', ':', '0', '0']

/-- The pieces of the `json.dumps(top_level, indent=2)` text for one entry of
the `transactions` array.  Every piece starts with `"`. -/
def txPieces (isLast : Bool) (r : TxRow) : List (List Char) :=
  [ '"' :: strC "category\": \x7b\n        ",
    '"' :: (strC "name\": \"" ++ jsonEscape r.catName.data ++ strC "\",\n        "),
    '"' :: (strC "created_at\": \"" ++ isoUTC r.catAt ++ patPlus ++
      strC "\"\n      \x7d,\n      "),
    '"' :: (strC "description\": \"" ++ jsonEscape r.descr.data ++ strC "\",\n      "),
    '"' :: (strC "amount\": " ++ ratRepr r.amount ++ strC ",\n      "),
    '"' :: (strC "created_at\": \"" ++ isoUTC r.txAt ++ patPlus ++ strC "\"\n    \x7d" ++
      (if isLast then strC "\n  ],\n  " else strC ",\n    \x7b\n      ")) ]

def txsPieces : List TxRow → List (List Char)
  | [] => []
  | [r] => txPieces true r
  | r :: rs => txPieces false r ++ txsPieces rs

/-- Pieces for one entry of the `categories` array. -/
def catPieces (isLast : Bool) (c : String × DT) : List (List Char) :=
  [ '"' :: (strC "name\": \"" ++ jsonEscape c.1.data ++ strC "\",\n      "),
    '"' :: (strC "created_at\": \"" ++ isoUTC c.2 ++ patPlus ++ strC "\"\n    \x7d" ++
      (if isLast then strC "\n  ]\n\x7d" else strC ",\n    \x7b\n      ")) ]

def catsPieces : List (String × DT) → List (List Char)
  | [] => []
  | [c] => catPieces true c
  | c :: cs => catPieces false c ++ catsPieces cs

/-- The `json.dumps(top_level, indent=2)` document, cut into pieces such that
every piece after the leading `"{\n  "` starts with a `"`. -/
def docPieces (txs : List TxRow) (cats : List (String × DT)) : List (List Char) :=
  (if txs.isEmpty then ['"' :: strC "transactions\": [],\n  "]
   else ('"' :: strC "transactions\": [\n    \x7b\n      ") :: txsPieces txs) ++
  (if cats.isEmpty then ['"' :: strC "categories\": []\n\x7d"]
   else ('"' :: strC "categories\": [\n    \x7b\n      ") :: catsPieces cats)

def docChars (txs : List TxRow) (cats : List (String × DT)) : List Char :=
  strC "\x7b\n  " ++ (docPieces txs cats).flatten

/-- Is `p` a leading segment of `l`? -/
def isSegPre : List Char → List Char → Bool
  | [], _ => true
  | _ :: _, [] => false
  | a :: as_, b :: bs => a = b && isSegPre as_ bs

/-- Does `l` contain `p` as a contiguous segment? -/
def containsSeg (p : List Char) : List Char → Bool
  | [] => p.isEmpty
  | c :: rest => isSegPre p (c :: rest) || containsSeg p rest

/-- Python `str.replace("+00:00", "Z")`: left-to-right, non-overlapping
(fuel-structured on the list length so the kernel can evaluate it). -/
def replaceAllAux : Nat → List Char → List Char
  | 0, l => l
  | _ + 1, [] => []
  | fuel + 1, c :: rest =>
      if isSegPre patPlus (c :: rest) then 'Z' :: replaceAllAux fuel ((c :: rest).drop 6)
      else c :: replaceAllAux fuel rest

def replaceAllChars (l : List Char) : List Char := replaceAllAux l.length l

/-- Build a list from fallible per-element steps, aborting at the first
failure (the model of a Python `for` loop whose body can raise). -/
def optMapM {α β : Type} (f : α → Option β) : List α → Option (List β)
  | [] => some []
  | a :: as =>
      match f a with
      | none => none
      | some b =>
          match optMapM f as with
          | none => none
          | some bs => some (b :: bs)

def catRowsOf (l' : Transactions) : Option (List (String × DT)) :=
  optMapM (fun c => (c.created_at).map (fun v => (c.name, v)))
    (l'.map (fun t => t.category))

def txRowsOf (l' : Transactions) (catRows : List (String × DT)) : Option (List TxRow) :=
  optMapM (fun t =>
      ((catRows.find? (fun p => p.1 == t.category.name)).map
        (fun cd => TxRow.mk cd.1 cd.2 t.notes t.amount t.created_at))) l'

/-- `Transactions.__repr__` (lines 105-133, also `to_json`): run the
aggregation, build the `categories` dicts (the `assert category.created_at is
not None` modelled as `none` on failure), build the `transactions` dicts
(whose `category` is the first `categories` entry with the same name; the
`[0]` indexing modelled as `none` when no entry matches), render with
`json.dumps(..., indent=2)` and apply `.replace("+00:00", "Z")` to the whole
text.  The iteration order of the Python `set` of category instances is
unspecified; the model fixes it as transaction order, and no settled claim
depends on the order. -/
def reprJson (l : Transactions) : Option String :=
  match catRowsOf (set_default_category_created_ats l) with
  | none => none
  | some catRows =>
      match txRowsOf (set_default_category_created_ats l) catRows with
      | none => none
      | some txRows => some ⟨replaceAllChars (docChars txRows catRows)⟩

/-! ## Specification-side definitions -/

/-- The `created_at` values of the ledger's transactions bearing a given
category name, in ledger order. -/
def filterTimes (l : Transactions) (n : String) : List DT :=
  (l.filter (fun t => t.category.name == n)).map (fun t => t.created_at)

/-- Minimum of two optional timestamps (`none` = no value yet). -/
def optMin : Option DT → Option DT → Option DT
  | none, b => b
  | some a, none => some a
  | some a, some b => some (min a b)

/-- Minimum of a list of timestamps, `none` on the empty list. -/
def listMin : List DT → Option DT
  | [] => none
  | x :: xs => optMin (some x) (listMin xs)

/-! ## Aggregation lemmas -/

theorem lookupName_cons (k : String) (w : DT) (r : List (String × DT)) (n : String) :
    lookupName ((k, w) :: r) n = if k = n then some w else lookupName r n := rfl

theorem updateName_cons (k : String) (w : DT) (r : List (String × DT)) (n : String)
    (v : DT) :
    updateName ((k, w) :: r) n v = (if k = n then (k, v) else (k, w)) :: updateName r n v :=
  rfl

theorem lookupName_updateName_self (m : List (String × DT)) (n : String) (v : DT) :
    lookupName (updateName m n v) n = (lookupName m n).map (fun _ => v) := by
  induction m with
  | nil => rfl
  | cons p r ih =>
      obtain ⟨k, w⟩ := p
      by_cases h : k = n
      · subst h
        simp [updateName_cons, lookupName_cons]
      · simp [updateName_cons, lookupName_cons, h, ih]

theorem lookupName_updateName_other (m : List (String × DT)) (n n' : String) (v : DT)
    (h : n ≠ n') : lookupName (updateName m n' v) n = lookupName m n := by
  induction m with
  | nil => rfl
  | cons p r ih =>
      obtain ⟨k, w⟩ := p
      by_cases hp : k = n'
      · subst hp
        simp [updateName_cons, lookupName_cons, Ne.symm h, ih]
      · simp [updateName_cons, lookupName_cons, hp, ih]

theorem lookupName_append (m m' : List (String × DT)) (n : String) :
    lookupName (m ++ m') n =
      match lookupName m n with
      | some v => some v
      | none => lookupName m' n := by
  induction m with
  | nil => rfl
  | cons p r ih =>
      obtain ⟨k, w⟩ := p
      by_cases hp : k = n
      · subst hp
        simp [lookupName_cons]
      · simpa [lookupName_cons, hp] using ih

theorem optMin_none_right (a : Option DT) : optMin a none = a := by
  cases a <;> rfl

theorem optMin_absorb_le {a cur : DT} (h : a ≤ cur) (x : Option DT) :
    optMin (some a) x = optMin (some cur) (optMin (some a) x) := by
  cases x with
  | none =>
      simp only [optMin]
      rw [min_eq_right h]
  | some b =>
      simp only [optMin]
      rw [min_eq_right (le_trans (min_le_left a b) h)]

theorem optMin_absorb_ge {a cur : DT} (h : cur ≤ a) (x : Option DT) :
    optMin (some cur) x = optMin (some cur) (optMin (some a) x) := by
  cases x with
  | none =>
      simp only [optMin]
      rw [min_eq_left h]
  | some b =>
      simp only [optMin]
      rw [← min_assoc, min_eq_left h]

theorem buildEarliest_cons (t : Transaction) (ts : List Transaction)
    (m : List (String × DT)) :
    buildEarliest (t :: ts) m =
      match lookupName m t.category.name with
      | some cur =>
          buildEarliest ts
            (if t.created_at < cur then updateName m t.category.name t.created_at
             else m)
      | none => buildEarliest ts (m ++ [(t.category.name, t.created_at)]) := rfl

theorem filterTimes_cons (t : Transaction) (ts : List Transaction) (n : String) :
    filterTimes (t :: ts) n =
      if t.category.name == n then t.created_at :: filterTimes ts n
      else filterTimes ts n := by
  by_cases h : t.category.name == n <;> simp [filterTimes, List.filter_cons, h]

/-- The dict built by the first loop holds, per name, the minimum of the
initial entry and the earliest matching transaction timestamp. -/
theorem lookupName_buildEarliest (ts : List Transaction) :
    ∀ (m : List (String × DT)) (n : String),
      lookupName (buildEarliest ts m) n =
        optMin (lookupName m n) (listMin (filterTimes ts n)) := by
  induction ts with
  | nil =>
      intro m n
      simp [buildEarliest, filterTimes, listMin, optMin_none_right]
  | cons t ts ih =>
      intro m n
      rw [filterTimes_cons]
      by_cases hn : t.category.name = n
      · subst hn
        simp only [beq_self_eq_true, if_pos]
        rw [listMin]
        cases h : lookupName m t.category.name with
        | none =>
            rw [buildEarliest_cons, h]
            simp only []
            rw [ih, lookupName_append, h]
            simp [lookupName_cons, lookupName, optMin]
        | some cur =>
            rw [buildEarliest_cons, h]
            simp only []
            by_cases hlt : t.created_at < cur
            · rw [if_pos hlt, ih, lookupName_updateName_self, h]
              simp only [Option.map_some']
              exact optMin_absorb_le (le_of_lt hlt) (listMin (filterTimes ts t.category.name))
            · rw [if_neg hlt, ih, h]
              exact optMin_absorb_ge (le_of_not_lt hlt) _
      · have hbeq : (t.category.name == n) = false := by
          simpa using hn
        rw [hbeq]
        simp only [Bool.false_eq_true, if_neg, not_false_iff]
        cases h : lookupName m t.category.name with
        | none =>
            rw [buildEarliest_cons, h]
            simp only []
            rw [ih, lookupName_append]
            cases hmn : lookupName m n with
            | none => simp [hmn, lookupName_cons, hn, lookupName, optMin]
            | some w => simp [hmn]
        | some cur =>
            rw [buildEarliest_cons, h]
            simp only []
            by_cases hlt : t.created_at < cur
            · rw [if_pos hlt, ih, lookupName_updateName_other _ _ _ _ (Ne.symm hn)]
            · rw [if_neg hlt, ih]

theorem listMin_isSome_of_mem {x : DT} {xs : List DT} (h : x ∈ xs) :
    (listMin xs).isSome = true := by
  cases xs with
  | nil => cases h
  | cons y ys => cases hy : listMin ys <;> simp [listMin, optMin, hy]

theorem lookup_buildEarliest_nil (l : Transactions) (n : String) :
    lookupName (buildEarliest l []) n = listMin (filterTimes l n) := by
  rw [lookupName_buildEarliest]
  rfl

theorem updF_category_name (m : List (String × DT)) (t : Transaction) :
    (updF m t).category.name = t.category.name := rfl

theorem updF_created_at (m : List (String × DT)) (t : Transaction) :
    (updF m t).created_at = t.created_at := rfl

theorem mem_filterTimes_self {t : Transaction} {l : Transactions} (ht : t ∈ l) :
    t.created_at ∈ filterTimes l t.category.name := by
  unfold filterTimes
  exact List.mem_map.mpr ⟨t, List.mem_filter.mpr ⟨ht, by simp⟩, rfl⟩

/-- C1 — after the aggregation, every transaction's category instance carries
the minimum `created_at` among the ledger's transactions of the same
category name. -/
theorem claim1_category_created_at_is_min (l : Transactions) (u : Transaction)
    (hu : u ∈ set_default_category_created_ats l) :
    u.category.created_at = listMin (filterTimes l u.category.name) := by
  obtain ⟨t, ht, rfl⟩ := List.mem_map.mp hu
  rw [updF_category_name]
  exact lookup_buildEarliest_nil l t.category.name

/-- The two-transaction ledger of the C1 example: category name `"Food"`
at timestamps `100 < 200`. -/
def ledgerC1 : Transactions :=
  [⟨100, 1, ⟨"Food", none⟩, "a"⟩, ⟨200, 2, ⟨"Food", none⟩, "b"⟩]

/-- Witness for C1: on `ledgerC1` both aggregated transactions carry
`created_at = 100`, the earlier timestamp. -/
theorem claim1_category_created_at_is_min_witness :
    (⟨100, 1, ⟨"Food", some 100⟩, "a"⟩ : Transaction).category.created_at =
      listMin (filterTimes ledgerC1
        (⟨100, 1, ⟨"Food", some 100⟩, "a"⟩ : Transaction).category.name) ∧
    (⟨200, 2, ⟨"Food", some 100⟩, "b"⟩ : Transaction).category.created_at =
      listMin (filterTimes ledgerC1
        (⟨200, 2, ⟨"Food", some 100⟩, "b"⟩ : Transaction).category.name) ∧
    listMin (filterTimes ledgerC1 "Food") = some 100 :=
  ⟨claim1_category_created_at_is_min ledgerC1 _ (by decide),
   claim1_category_created_at_is_min ledgerC1 _ (by decide),
   by decide⟩

theorem buildEarliest_map_congr (g : Transaction → Transaction)
    (hc : ∀ t, (g t).created_at = t.created_at)
    (hn : ∀ t, (g t).category.name = t.category.name) :
    ∀ (ts : List Transaction) (m : List (String × DT)),
      buildEarliest (ts.map g) m = buildEarliest ts m := by
  intro ts
  induction ts with
  | nil => intro m; rfl
  | cons t ts ih =>
      intro m
      rw [List.map_cons, buildEarliest_cons, buildEarliest_cons, hc t, hn t]
      cases h : lookupName m t.category.name with
      | none => simp only [h]; exact ih _
      | some cur => simp only [h]; exact ih _

theorem updF_idem (m : List (String × DT)) (t : Transaction) :
    updF m (updF m t) = updF m t := rfl

/-- C6 — the aggregation is idempotent: a second run changes nothing (in
particular every `created_at` keeps the value of the first run). -/
theorem claim6_aggregation_idempotent (l : Transactions) :
    set_default_category_created_ats (set_default_category_created_ats l) =
      set_default_category_created_ats l := by
  unfold set_default_category_created_ats
  rw [buildEarliest_map_congr (updF (buildEarliest l [])) (fun t => rfl) (fun t => rfl)]
  rw [List.map_map]
  have hcomp : updF (buildEarliest l []) ∘ updF (buildEarliest l []) =
      updF (buildEarliest l []) :=
    funext fun t => updF_idem _ t
  rw [hcomp]

/-! ## `Option`-monad `mapM` lemmas -/

theorem optMapM_isSome {α β : Type} (f : α → Option β) (xs : List α)
    (h : ∀ a ∈ xs, (f a).isSome = true) : (optMapM f xs).isSome = true := by
  induction xs with
  | nil => rfl
  | cons a xs ih =>
      obtain ⟨b, hb⟩ := Option.isSome_iff_exists.mp (h a (List.mem_cons_self a xs))
      obtain ⟨bs, hbs⟩ :=
        Option.isSome_iff_exists.mp (ih fun x hx => h x (List.mem_cons_of_mem a hx))
      simp [optMapM, hb, hbs]

theorem optMapM_eq_some_forall₂ {α β : Type} (f : α → Option β) :
    ∀ (xs : List α) (ys : List β), optMapM f xs = some ys →
      List.Forall₂ (fun a b => f a = some b) xs ys := by
  intro xs
  induction xs with
  | nil =>
      intro ys h
      cases h
      exact List.Forall₂.nil
  | cons a as ih =>
      intro ys h
      unfold optMapM at h
      cases hfa : f a with
      | none => rw [hfa] at h; cases h
      | some b =>
          rw [hfa] at h
          cases hmas : optMapM f as with
          | none => rw [hmas] at h; cases h
          | some bs =>
              rw [hmas] at h
              cases h
              exact List.Forall₂.cons hfa (ih bs hmas)

theorem forall₂_mem_left {α β : Type} {R : α → β → Prop} :
    ∀ {xs : List α} {ys : List β}, List.Forall₂ R xs ys →
      ∀ {a : α}, a ∈ xs → ∃ b, b ∈ ys ∧ R a b := by
  intro xs ys h
  induction h with
  | nil => intro a ha; cases ha
  | @cons x y xs ys hR htail ih =>
      intro a ha
      rcases List.mem_cons.mp ha with rfl | ha'
      · exact ⟨y, List.mem_cons_self y ys, hR⟩
      · obtain ⟨b, hb, hRb⟩ := ih ha'
        exact ⟨b, List.mem_cons_of_mem y hb, hRb⟩

theorem find?_isSome_of_mem {α : Type} (p : α → Bool) :
    ∀ {l : List α} {a : α}, a ∈ l → p a = true → (l.find? p).isSome = true := by
  intro l
  induction l with
  | nil => intro a h; cases h
  | cons x xs ih =>
      intro a ha hp
      cases hx : p x with
      | true => simp [List.find?_cons_of_pos _ hx]
      | false =>
          rcases List.mem_cons.mp ha with rfl | ha'
          · rw [hp] at hx; cases hx
          · rw [List.find?_cons_of_neg _ (by simp [hx])]
            exact ih ha' hp

/-! ## C5: the serializer's assertion -/

theorem set_default_created_at_isSome (l : Transactions) :
    ∀ u ∈ set_default_category_created_ats l, u.category.created_at.isSome = true := by
  intro u hu
  obtain ⟨t, ht, rfl⟩ := List.mem_map.mp hu
  have hv : (updF (buildEarliest l []) t).category.created_at =
      listMin (filterTimes l t.category.name) := lookup_buildEarliest_nil l t.category.name
  rw [hv]
  exact listMin_isSome_of_mem (mem_filterTimes_self ht)

theorem catRowsOf_isSome (l : Transactions) :
    (catRowsOf (set_default_category_created_ats l)).isSome = true := by
  apply optMapM_isSome
  intro c hc
  obtain ⟨u, hu, rfl⟩ := List.mem_map.mp hc
  have hs := set_default_created_at_isSome l u hu
  cases hcc : u.category.created_at with
  | none => rw [hcc] at hs; cases hs
  | some v => simp [hcc]

theorem txRowsOf_isSome (l : Transactions) (cr : List (String × DT))
    (hcr : catRowsOf (set_default_category_created_ats l) = some cr) :
    (txRowsOf (set_default_category_created_ats l) cr).isSome = true := by
  apply optMapM_isSome
  intro t ht
  have hf₂ := optMapM_eq_some_forall₂ _ _ _ hcr
  have hmem : t.category ∈ (set_default_category_created_ats l).map (fun t => t.category) :=
    List.mem_map.mpr ⟨t, ht, rfl⟩
  obtain ⟨b, hb, hRb⟩ := forall₂_mem_left hf₂ hmem
  cases hcc : t.category.created_at with
  | none => rw [hcc] at hRb; cases hRb
  | some v =>
      rw [hcc] at hRb
      simp only [Option.map_some'] at hRb
      cases hRb
      have hfind : (cr.find? (fun p => p.1 == t.category.name)).isSome = true :=
        find?_isSome_of_mem _ hb (by simp)
      simpa using hfind

/-- C5 — serialization always runs the aggregation first; hence every
category instance referenced by a transaction has a non-absent `created_at`
at serialization time, and the serializer (its `assert` and the `[0]`
indexing into the matching category dicts) never fails. -/
theorem claim5_serializer_assert_never_fails (l : Transactions) :
    (∀ u ∈ set_default_category_created_ats l, u.category.created_at.isSome = true) ∧
    (reprJson l).isSome = true := by
  refine ⟨set_default_created_at_isSome l, ?_⟩
  obtain ⟨cr, hcr⟩ := Option.isSome_iff_exists.mp (catRowsOf_isSome l)
  obtain ⟨tr, htr⟩ := Option.isSome_iff_exists.mp (txRowsOf_isSome l cr hcr)
  unfold reprJson
  simp [hcr, htr]

def ledgerC5 : Transactions := [⟨50, 3, ⟨"A", none⟩, "n"⟩]

/-- Witness for C5 at a concrete one-transaction ledger. -/
theorem claim5_serializer_assert_never_fails_witness :
    (reprJson ledgerC5).isSome = true ∧
    (⟨50, 3, ⟨"A", some 50⟩, "n"⟩ : Transaction).category.created_at.isSome = true :=
  ⟨(claim5_serializer_assert_never_fails ledgerC5).2,
   (claim5_serializer_assert_never_fails ledgerC5).1 _ (by decide)⟩

/-! ## C2 / C8: the tolerant row loop -/

/-- Spec-side: the transactions of the structurally valid data rows, in
input order (the header row excluded). -/
def specTransactions (rows : List (List String)) : Transactions :=
  (rows.drop 1).filterMap (fun r => (parseRow r).toOption)

def diagOf (p : Nat × List String) : Option (Nat × RowErr) :=
  match parseRow p.2 with
  | .error e => some (p.1, e)
  | .ok _ => none

/-- Spec-side: one diagnostic per invalid data row, carrying the row's index
and the failure reason. -/
def specDiags (rows : List (List String)) : List (Nat × RowErr) :=
  ((rows.drop 1).enumFrom 1).filterMap diagOf

theorem parseLoopAux_ge_one (rest : List (List String)) :
    ∀ (i : Nat) (ts : Transactions) (ds : List (Nat × RowErr)), 1 ≤ i →
      parseLoopAux rest i ts ds =
        (ts ++ rest.filterMap (fun r => (parseRow r).toOption),
         ds ++ (rest.enumFrom i).filterMap diagOf) := by
  induction rest with
  | nil =>
      intro i ts ds hi
      simp [parseLoopAux]
  | cons row rest ih =>
      intro i ts ds hi
      have hne : ¬(i = 0) := by omega
      rw [parseLoopAux]
      rw [if_neg hne]
      cases hp : parseRow row with
      | ok t =>
          simp only []
          rw [ih (i + 1) _ _ (by omega)]
          simp [List.enumFrom_cons, List.filterMap_cons, diagOf, hp, Except.toOption]
      | error e =>
          simp only []
          rw [ih (i + 1) _ _ (by omega)]
          simp [List.enumFrom_cons, List.filterMap_cons, diagOf, hp, Except.toOption]

theorem parse_expense_log_eq (rows : List (List String)) :
    parse_expense_log rows = (specTransactions rows, specDiags rows) := by
  cases rows with
  | nil => rfl
  | cons hdr rest =>
      have h0 : parse_expense_log (hdr :: rest) = parseLoopAux rest 1 [] [] := rfl
      rw [h0, parseLoopAux_ge_one rest 1 [] [] (by omega)]
      simp [specTransactions, specDiags]

theorem length_filterMap_eq_countP {α β : Type} (f : α → Option β) (l : List α) :
    (l.filterMap f).length = l.countP (fun a => (f a).isSome) := by
  induction l with
  | nil => rfl
  | cons a l ih =>
      cases hf : f a <;>
        simp [List.filterMap_cons, hf, List.countP_cons, ih]

theorem mem_enumFrom_of_get? {α : Type} :
    ∀ (l : List α) (n k : Nat) (a : α), l.get? k = some a → (n + k, a) ∈ l.enumFrom n := by
  intro l
  induction l with
  | nil => intro n k a h; cases h
  | cons x xs ih =>
      intro n k a h
      cases k with
      | zero =>
          cases h
          simp [List.enumFrom_cons]
      | succ k' =>
          have hk : n + (k' + 1) = (n + 1) + k' := by omega
          rw [hk, List.enumFrom_cons]
          exact List.mem_cons_of_mem _ (ih (n + 1) k' a h)

/-- C2 — row-level fault isolation: the parse of a file equals, rows beyond
the header, the transactions of exactly the structurally valid rows in order
(so one bad row skips only itself); the ledger size is the count of valid
data rows; and every failing data row leaves a diagnostic carrying its row
index and reason on the side channel. -/
theorem claim2_bad_row_skipped_others_kept (rows : List (List String)) :
    parse_expense_log rows = (specTransactions rows, specDiags rows) ∧
    (parse_expense_log rows).1.length =
      (rows.drop 1).countP (fun r => (parseRow r).toOption.isSome) ∧
    (∀ (i : Nat) (r : List String) (e : RowErr),
      rows.get? i = some r → 1 ≤ i → parseRow r = .error e →
      (i, e) ∈ (parse_expense_log rows).2) := by
  refine ⟨parse_expense_log_eq rows, ?_, ?_⟩
  · rw [parse_expense_log_eq]
    exact length_filterMap_eq_countP _ _
  · intro i r e hget hi herr
    rw [parse_expense_log_eq]
    show (i, e) ∈ specDiags rows
    have hdrop : (rows.drop 1).get? (i - 1) = some r := by
      rw [List.get?_eq_getElem?, List.getElem?_drop]
      have h1 : 1 + (i - 1) = i := by omega
      rw [h1, ← List.get?_eq_getElem?]
      exact hget
    have hmem : (1 + (i - 1), r) ∈ (rows.drop 1).enumFrom 1 :=
      mem_enumFrom_of_get? _ 1 (i - 1) r hdrop
    have hidx : 1 + (i - 1) = i := by omega
    rw [hidx] at hmem
    exact List.mem_filterMap.mpr ⟨(i, r), hmem, by simp [diagOf, herr]⟩

def rowsC2 : List (List String) :=
  [["header"],
   ["05/01/23", "14:30", "-$1,234.56", "Food", "x"],
   ["bad"],
   ["06/01/23", "14:31", "$2", "Food", "y"]]

/-- Witness for C2: on a file with one malformed data row, the diagnostic for
row 2 is emitted, and both valid rows still parse. -/
theorem claim2_bad_row_skipped_others_kept_witness :
    ((2 : Nat), RowErr.badDateSplit) ∈ (parse_expense_log rowsC2).2 ∧
    (parse_expense_log rowsC2).1.length =
      (rowsC2.drop 1).countP (fun r => (parseRow r).toOption.isSome) ∧
    (parse_expense_log rowsC2).1.length = 2 :=
  ⟨(claim2_bad_row_skipped_others_kept rowsC2).2.2 2 ["bad"] .badDateSplit
      (by decide) (by omega) (by rfl),
   (claim2_bad_row_skipped_others_kept rowsC2).2.1,
   by decide⟩

/-- C8 — the first row never contributes a transaction, whatever its content:
the parse result does not depend on the header row at all, and the output
transactions are exactly those of the remaining rows. -/
theorem claim8_header_row_always_skipped (hdr₁ hdr₂ : List String)
    (rows : List (List String)) :
    parse_expense_log (hdr₁ :: rows) = parse_expense_log (hdr₂ :: rows) ∧
    (parse_expense_log (hdr₁ :: rows)).1 =
      rows.filterMap (fun r => (parseRow r).toOption) := by
  constructor
  · rfl
  · have h0 : parse_expense_log (hdr₁ :: rows) = parseLoopAux rows 1 [] [] := rfl
    rw [h0, parseLoopAux_ge_one rows 1 [] [] (by omega)]
    simp

/-! ## C3 / C10: amount parsing -/

theorem digit_ne_char {c : Char} (hc : isAsciiDigit c = true) {d : Char}
    (hd : isAsciiDigit d = false) : c ≠ d := by
  intro e
  rw [e] at hc
  rw [hc] at hd
  cases hd

theorem isWs_false_of_digit {c : Char} (hc : isAsciiDigit c = true) : isWs c = false := by
  have hb : 48 ≤ c.toNat ∧ c.toNat ≤ 57 := by simpa [isAsciiDigit] using hc
  simp only [isWs]
  simp only [decide_eq_false_iff_not, not_or]
  omega

theorem splitChar_ne_nil (sep : Char) (l : List Char) : splitChar sep l ≠ [] := by
  cases l with
  | nil => simp [splitChar]
  | cons c r =>
      by_cases h : c = sep
      · simp [splitChar, h]
      · simp only [splitChar, h, if_false]
        cases hs : splitChar sep r <;> simp

theorem splitChar_no_sep (sep : Char) : ∀ (l : List Char), sep ∉ l → splitChar sep l = [l] := by
  intro l
  induction l with
  | nil => intro _; rfl
  | cons c r ih =>
      intro h
      have hc : ¬(c = sep) := fun e => h (by rw [← e]; exact List.mem_cons_self c r)
      have hr : sep ∉ r := fun hm => h (List.mem_cons_of_mem c hm)
      rw [splitChar, if_neg hc, ih hr]

theorem splitChar_append (sep : Char) : ∀ (a b : List Char), sep ∉ a →
    splitChar sep (a ++ sep :: b) = a :: splitChar sep b := by
  intro a
  induction a with
  | nil => intro b _; simp [splitChar]
  | cons c a' ih =>
      intro b h
      have hc : ¬(c = sep) := fun e => h (by rw [← e]; exact List.mem_cons_self c a')
      have ha : sep ∉ a' := fun hm => h (List.mem_cons_of_mem c hm)
      rw [List.cons_append, splitChar, if_neg hc, ih b ha]

theorem splitChar_length (sep : Char) : ∀ (l : List Char),
    (splitChar sep l).length = l.count sep + 1 := by
  intro l
  induction l with
  | nil => simp [splitChar]
  | cons c r ih =>
      by_cases h : c = sep
      · subst h
        simp only [splitChar, if_pos rfl, List.length_cons, List.count_cons]
        simp [ih]
      · simp only [splitChar, h, if_false]
        cases hs : splitChar sep r with
        | nil => exact absurd hs (splitChar_ne_nil sep r)
        | cons g gs =>
            have hlen := ih
            rw [hs] at hlen
            simp only [List.length_cons] at hlen ⊢
            have hcnt : (c :: r).count sep = r.count sep := by
              have hne : ¬(sep = c) := fun e => h e.symm
              simp [List.count_cons, hne]
            omega

/-- Lines 162-168 on a field with exactly one `$`: the prefix decides the
sign (`-` and nothing else negates) and the comma-stripped suffix goes to
`Decimal`. -/
theorem parseAmountE_decomp (a b : List Char) (ha : '$' ∉ a) (hb : '$' ∉ b) :
    parseAmountE ⟨a ++ '$' :: b⟩ =
      match pyDecimal ⟨b.filter (fun c => c ≠ ',')⟩ with
      | some v => .ok (v * (if a = ['-'] then -1 else 1))
      | none => .error .badDecimalLiteral := by
  unfold parseAmountE
  rw [show (⟨a ++ '$' :: b⟩ : String).data = a ++ '$' :: b from rfl]
  rw [splitChar_append '$' a b ha, splitChar_no_sep '$' b hb]

/-- C10 — any prefix before the single `$` other than `-` (empty, `+`,
arbitrary text) leaves the amount unnegated, and the amount step fails (the
row is skipped) exactly when the field does not have one `$` or the
comma-stripped suffix is not a decimal literal accepted by `Decimal`. -/
theorem claim10_amount_prefix_and_skip_rule :
    (∀ (a b : List Char), '$' ∉ a → '$' ∉ b →
       parseAmount ⟨a ++ '$' :: b⟩ =
         (pyDecimal ⟨b.filter (fun c => c ≠ ',')⟩).map
           (fun v => v * (if a = ['-'] then -1 else 1))) ∧
    (∀ s : List Char, s.count '$' ≠ 1 → parseAmount ⟨s⟩ = none) := by
  constructor
  · intro a b ha hb
    unfold parseAmount
    rw [parseAmountE_decomp a b ha hb]
    cases hd : pyDecimal ⟨b.filter (fun c => c ≠ ',')⟩ with
    | none => rfl
    | some v => rfl
  · intro s hcount
    unfold parseAmount parseAmountE
    have hlen := splitChar_length '$' s
    rw [show (⟨s⟩ : String).data = s from rfl]
    cases hsp : splitChar '$' s with
    | nil => rfl
    | cons x rest =>
        cases rest with
        | nil => rfl
        | cons y rest2 =>
            cases rest2 with
            | nil =>
                exfalso
                rw [hsp] at hlen
                simp only [List.length_cons, List.length_nil] at hlen
                omega
            | cons z rest3 => rfl

/-- Witness for C10: `"+abc$1,0.5"` parses (positively) to `10.5` exactly,
and `"$1$2"` (two `$`) is rejected. -/
theorem claim10_amount_prefix_and_skip_rule_witness :
    parseAmount "+abc$1,0.5" = some ((21 : Rat) / 2) ∧ parseAmount "$1$2" = none := by
  constructor
  · have h := claim10_amount_prefix_and_skip_rule.1 (strC "+abc") (strC "1,0.5")
      (by decide) (by decide)
    rw [show (⟨strC "+abc" ++ '$' :: strC "1,0.5"⟩ : String) = "+abc$1,0.5" from rfl] at h
    rw [h]
    with_unfolding_all rfl
  · have h := claim10_amount_prefix_and_skip_rule.2 (strC "$1$2") (by decide)
    exact h

/-! ## C3: exact decimal value of well-formed amount fields -/

/-- The fractional tail of an amount literal: `.digits` or nothing. -/
def frTail : Option (List Char) → List Char
  | some f => '.' :: f
  | none => []

/-- The fractional part's exact value. -/
def frValue : Option (List Char) → Rat
  | some f => (natOfDigits f : Rat) / (10 : Rat) ^ f.length
  | none => 0

/-- Digit groups joined with thousands separators. -/
def commaJoin : List (List Char) → List Char
  | [] => []
  | [g] => g
  | g :: gs => g ++ ',' :: commaJoin gs

/-- An amount field of the form `<sign><currency-symbol><digits>[,digits]*[.digits]`. -/
def amountFieldChars (neg : Bool) (gs : List (List Char)) (fr : Option (List Char)) :
    List Char :=
  (if neg then ['-'] else []) ++ '$' :: (commaJoin gs ++ frTail fr)

/-- Spec-side: the decimal number encoded by the digits with the thousands
separators removed. -/
def decimalValue (gs : List (List Char)) (fr : Option (List Char)) : Rat :=
  (natOfDigits gs.flatten : Rat) + frValue fr

theorem dropWhile_eq_self_of (p : Char → Bool) (l : List Char)
    (h : ∀ c ∈ l, p c = false) : l.dropWhile p = l := by
  cases l with
  | nil => rfl
  | cons c r =>
      rw [List.dropWhile_cons, h c (List.mem_cons_self c r)]
      simp

theorem stripWs_eq_self (l : List Char) (h : ∀ c ∈ l, isWs c = false) : stripWs l = l := by
  unfold stripWs
  rw [dropWhile_eq_self_of _ l h,
    dropWhile_eq_self_of _ _ (fun c hc => h c (List.mem_reverse.mp hc)),
    List.reverse_reverse]

theorem filter_ne_eq_self (d : Char) (l : List Char) (h : d ∉ l) :
    l.filter (fun c => c ≠ d) = l := by
  induction l with
  | nil => rfl
  | cons c r ih =>
      have hc : ¬(c = d) := fun e => h (by rw [← e]; exact List.mem_cons_self c r)
      have hd : (decide (c ≠ d)) = true := decide_eq_true hc
      rw [List.filter_cons]
      simp only [hd, if_true]
      rw [ih (fun hm => h (List.mem_cons_of_mem c hm))]

theorem filter_underscore_eq_self (l : List Char) (h : '_' ∉ l) :
    l.filter (fun c => c ≠ '_') = l := filter_ne_eq_self '_' l h

theorem takeSign_no_sign (c : Char) (r : List Char) (h1 : ¬c = '-') (h2 : ¬c = '+') :
    takeSign (c :: r) = (false, c :: r) := by
  show (if c = '-' then (true, r) else if c = '+' then (false, r) else (false, c :: r)) =
    (false, c :: r)
  rw [if_neg h1, if_neg h2]

theorem splitFirst_none (p : Char → Bool) : ∀ (l : List Char),
    (∀ c ∈ l, p c = false) → splitFirst p l = (l, none) := by
  intro l
  induction l with
  | nil => intro _; rfl
  | cons c r ih =>
      intro h
      rw [splitFirst, h c (List.mem_cons_self c r)]
      simp only [Bool.false_eq_true, if_false]
      rw [ih (fun x hx => h x (List.mem_cons_of_mem c hx))]

theorem splitFirst_append (p : Char → Bool) (sep : Char) (hs : p sep = true) :
    ∀ (a b : List Char), (∀ c ∈ a, p c = false) →
      splitFirst p (a ++ sep :: b) = (a, some b) := by
  intro a
  induction a with
  | nil =>
      intro b _
      simp only [List.nil_append]
      rw [splitFirst, hs]
      simp
  | cons c a' ih =>
      intro b h
      rw [List.cons_append, splitFirst, h c (List.mem_cons_self c a')]
      simp only [Bool.false_eq_true, if_false]
      rw [ih b (fun x hx => h x (List.mem_cons_of_mem c hx))]

theorem mem_allDigits {l : List Char} (h : allDigits l = true) {c : Char} (hc : c ∈ l) :
    isAsciiDigit c = true := by
  unfold allDigits at h
  exact List.all_eq_true.mp h c hc

/-- `Decimal` on a plain digit string with optional fractional digits:
the exact rational value. -/
theorem pyDecimal_plain (ds : List Char) (fr : Option (List Char))
    (hds : allDigits ds = true) (hne : ds ≠ [])
    (hfr : ∀ f, fr = some f → allDigits f = true) :
    pyDecimal ⟨ds ++ frTail fr⟩ = some ((natOfDigits ds : Rat) + frValue fr) := by
  have hchar : ∀ c ∈ ds ++ frTail fr, isAsciiDigit c = true ∨ c = '.' := by
    intro c hc
    rcases List.mem_append.mp hc with h1 | h2
    · exact Or.inl (mem_allDigits hds h1)
    · cases fr with
      | none => cases h2
      | some f =>
          rcases List.mem_cons.mp h2 with rfl | h3
          · exact Or.inr rfl
          · exact Or.inl (mem_allDigits (hfr f rfl) h3)
  have hws : ∀ c ∈ ds ++ frTail fr, isWs c = false := by
    intro c hc
    rcases hchar c hc with h | rfl
    · exact isWs_false_of_digit h
    · decide
  have hund : '_' ∉ ds ++ frTail fr := by
    intro hm
    rcases hchar _ hm with h | h
    · exact absurd h (by decide)
    · exact absurd h (by decide)
  obtain ⟨d, ds', rfl⟩ : ∃ d ds', ds = d :: ds' := by
    cases ds with
    | nil => exact absurd rfl hne
    | cons d ds' => exact ⟨d, ds', rfl⟩
  have hd0 : isAsciiDigit d = true := mem_allDigits hds (List.mem_cons_self _ _)
  have hchar' : ∀ c ∈ d :: (ds' ++ frTail fr), isAsciiDigit c = true ∨ c = '.' := by
    rw [← List.cons_append]
    exact hchar
  have hpe : ∀ c ∈ d :: (ds' ++ frTail fr), decide (c = 'e' ∨ c = 'E') = false := by
    intro c hc
    rcases hchar' c hc with h | rfl
    · refine decide_eq_false ?_
      intro hor
      rcases hor with rfl | rfl
      · exact absurd h (by decide)
      · exact absurd h (by decide)
    · decide
  unfold pyDecimal
  rw [show (⟨(d :: ds') ++ frTail fr⟩ : String).data = (d :: ds') ++ frTail fr from rfl]
  rw [stripWs_eq_self _ hws, filter_underscore_eq_self _ hund]
  unfold pyDecimalCore
  rw [List.cons_append,
    takeSign_no_sign d _ (digit_ne_char hd0 (by decide)) (digit_ne_char hd0 (by decide))]
  simp only []
  rw [splitFirst_none (fun c => c = 'e' ∨ c = 'E') _ hpe]
  simp only []
  cases fr with
  | none =>
      rw [show frTail (none : Option (List Char)) = [] from rfl, List.append_nil]
      have hpd : ∀ c ∈ d :: ds', decide (c = '.') = false := by
        intro c hc
        exact decide_eq_false (digit_ne_char (mem_allDigits hds hc) (by decide))
      rw [splitFirst_none (fun c => c = '.') _ hpd]
      simp only [Option.getD, parseExp]
      rw [if_pos ?hc1]
      case hc1 =>
        exact ⟨hds, rfl, Or.inl (by simp)⟩
      simp only [decSigned, Bool.false_eq_true, if_false, frValue, frTail,
        List.append_nil]
      rw [show natOfDigits ([] : List Char) = 0 from rfl]
      norm_num [ratPow10]
  | some f =>
      have hfd : allDigits f = true := hfr f rfl
      have hpd : ∀ c ∈ d :: ds', decide (c = '.') = false := by
        intro c hc
        exact decide_eq_false (digit_ne_char (mem_allDigits hds hc) (by decide))
      rw [show frTail (some f) = '.' :: f from rfl]
      rw [show d :: (ds' ++ '.' :: f) = (d :: ds') ++ '.' :: f from rfl]
      rw [splitFirst_append (fun c => c = '.') '.' (by decide) (d :: ds') f hpd]
      simp only [Option.getD, parseExp]
      rw [if_pos ?hc2]
      case hc2 =>
        exact ⟨hds, hfd, Or.inl (by simp)⟩
      simp only [decSigned, Bool.false_eq_true, if_false, frValue, frTail]
      norm_num [ratPow10]

theorem mem_commaJoin {c : Char} : ∀ (gs : List (List Char)), c ∈ commaJoin gs →
    c = ',' ∨ ∃ g ∈ gs, c ∈ g := by
  intro gs
  induction gs with
  | nil => intro h; cases h
  | cons g gs' ih =>
      cases gs' with
      | nil =>
          intro h
          exact Or.inr ⟨g, List.mem_cons_self g [], h⟩
      | cons g2 gs'' =>
          intro h
          rw [show commaJoin (g :: g2 :: gs'') = g ++ ',' :: commaJoin (g2 :: gs'')
            from rfl] at h
          rcases List.mem_append.mp h with h1 | h2
          · exact Or.inr ⟨g, List.mem_cons_self g _, h1⟩
          · rcases List.mem_cons.mp h2 with rfl | h3
            · exact Or.inl rfl
            · rcases ih h3 with h4 | ⟨g', hg', hcg⟩
              · exact Or.inl h4
              · exact Or.inr ⟨g', List.mem_cons_of_mem g hg', hcg⟩

theorem filter_comma_commaJoin (gs : List (List Char))
    (h : ∀ g ∈ gs, allDigits g = true) :
    (commaJoin gs).filter (fun c => c ≠ ',') = gs.flatten := by
  induction gs with
  | nil => rfl
  | cons g gs' ih =>
      have hgne : ',' ∉ g := fun hm =>
        absurd (mem_allDigits (h g (List.mem_cons_self _ _)) hm) (by decide)
      cases gs' with
      | nil =>
          rw [show commaJoin [g] = g from rfl, filter_ne_eq_self ',' g hgne]
          simp
      | cons g2 gs'' =>
          rw [show commaJoin (g :: g2 :: gs'') = g ++ ',' :: commaJoin (g2 :: gs'')
            from rfl]
          rw [List.filter_append, List.filter_cons]
          have hck : (decide ((',' : Char) ≠ ',')) = false := by decide
          simp only [hck, Bool.false_eq_true, if_false]
          rw [filter_ne_eq_self ',' g hgne,
            ih (fun x hx => h x (List.mem_cons_of_mem g hx))]
          simp

theorem allDigits_flatten : ∀ (gs : List (List Char)),
    (∀ g ∈ gs, allDigits g = true) → allDigits gs.flatten = true := by
  intro gs
  induction gs with
  | nil => intro _; rfl
  | cons g gs' ih =>
      intro h
      have h1 := h g (List.mem_cons_self _ _)
      have h2 := ih (fun x hx => h x (List.mem_cons_of_mem _ hx))
      unfold allDigits at h1 h2 ⊢
      rw [List.flatten_cons, List.all_append, h1, h2]
      rfl

/-- Shared decomposition: lines 162-168 in `Option` form. -/
theorem parseAmount_split_map (a b : List Char) (ha : '$' ∉ a) (hb : '$' ∉ b) :
    parseAmount ⟨a ++ '$' :: b⟩ =
      (pyDecimal ⟨b.filter (fun c => c ≠ ',')⟩).map
        (fun v => v * (if a = ['-'] then -1 else 1)) := by
  unfold parseAmount
  rw [parseAmountE_decomp a b ha hb]
  cases hd : pyDecimal ⟨b.filter (fun c => c ≠ ',')⟩ with
  | none => rfl
  | some v => rfl

/-- C3 — for a well-formed signed amount field
`<sign><currency-symbol><digits>[,digits]*[.digits]`, the parsed amount is
exactly the encoded decimal (thousands separators removed), negated iff the
sign is `-`, with no rounding. -/
theorem claim3_exact_decimal_amount (neg : Bool) (gs : List (List Char))
    (fr : Option (List Char)) (hgs : gs ≠ [])
    (hg : ∀ g ∈ gs, g ≠ [] ∧ allDigits g = true)
    (hfr : ∀ f, fr = some f → allDigits f = true) :
    parseAmount ⟨amountFieldChars neg gs fr⟩ =
      some (decimalValue gs fr * (if neg then -1 else 1)) := by
  have hgd : ∀ g ∈ gs, allDigits g = true := fun g hgm => (hg g hgm).2
  have hnum : '$' ∉ commaJoin gs ++ frTail fr := by
    intro hm
    rcases List.mem_append.mp hm with h1 | h2
    · rcases mem_commaJoin _ h1 with h | ⟨g, hgm, hcg⟩
      · exact absurd h (by decide)
      · exact absurd (mem_allDigits (hgd g hgm) hcg) (by decide)
    · cases fr with
      | none => cases h2
      | some f =>
          rcases List.mem_cons.mp h2 with h | h3
          · exact absurd h (by decide)
          · exact absurd (mem_allDigits (hfr f rfl) h3) (by decide)
  have hsign : '$' ∉ (if neg then ['-'] else ([] : List Char)) := by
    cases neg <;> decide
  rw [show amountFieldChars neg gs fr =
      (if neg then ['-'] else []) ++ '$' :: (commaJoin gs ++ frTail fr) from rfl]
  rw [parseAmount_split_map _ _ hsign hnum]
  have hfilter : (commaJoin gs ++ frTail fr).filter (fun c => c ≠ ',') =
      gs.flatten ++ frTail fr := by
    rw [List.filter_append, filter_comma_commaJoin gs hgd]
    congr 1
    cases fr with
    | none => rfl
    | some f =>
        rw [show frTail (some f) = '.' :: f from rfl, List.filter_cons]
        have hck : (decide (('.' : Char) ≠ ',')) = true := by decide
        simp only [hck, if_true]
        rw [filter_ne_eq_self ',' f
          (fun hm => absurd (mem_allDigits (hfr f rfl) hm) (by decide))]
  rw [hfilter]
  have hflat_digits : allDigits gs.flatten = true := allDigits_flatten gs hgd
  have hflat_ne : gs.flatten ≠ [] := by
    cases gs with
    | nil => exact absurd rfl hgs
    | cons g gs' =>
        obtain ⟨hgne, _⟩ := hg g (List.mem_cons_self _ _)
        cases g with
        | nil => exact absurd rfl hgne
        | cons c g' => simp [List.flatten_cons]
  rw [pyDecimal_plain gs.flatten fr hflat_digits hflat_ne hfr]
  simp only [Option.map_some']
  unfold decimalValue
  cases neg with
  | true => simp
  | false => simp

/-- Witness for C3: `"-$1,234.56"` parses to exactly `-1234.56`. -/
theorem claim3_exact_decimal_amount_witness :
    parseAmount "-$1,234.56" =
      some (decimalValue [['1'], ['2', '3', '4']] (some ['5', '6']) * (-1)) ∧
    decimalValue [['1'], ['2', '3', '4']] (some ['5', '6']) * (-1 : Rat) =
      -(123456 / 100) := by
  constructor
  · have h := claim3_exact_decimal_amount true [['1'], ['2', '3', '4']] (some ['5', '6'])
      (by decide) (by decide) (fun f hf => by cases hf; decide)
    rw [show (⟨amountFieldChars true [['1'], ['2', '3', '4']] (some ['5', '6'])⟩ : String) =
        "-$1,234.56" from rfl] at h
    simpa using h
  · with_unfolding_all rfl

/-! ## C4: timestamp normalization -/

/-- Spec-side (§4.2): the civil datetime `(2000+YY, MM, DD, HH, MM, 00)`
interpreted in the fixed hardcoded source timezone and converted to UTC by
applying that zone's offset (including the seasonal rules of the zone model)
for that civil date. -/
def specLocalCivilToUTC (yy mo dd hh mm : Int) : Int :=
  civilToEpochSecs (2000 + yy) mo dd hh mm 0 -
    edmontonOffsetSecs (2000 + yy) mo dd hh mm

set_option linter.unusedVariables false in
/-- C4 — for every row the parser accepts whose civil year `2000+YY` lies in
the faithfully modelled era of the zone (1948 onward, which covers every
two-digit year `00`–`99`), the stored timestamp is the UTC instant of the
civil datetime `(2000+YY, month, day, hour, minute, 00)` read in the fixed
source timezone, i.e. shifted by that zone's offset — including the seasonal
rules in effect for that civil date — (the `datetime` constructor's
validation holding). -/
theorem claim4_timestamp_is_zone_shifted_civil
    (dS mS yS hS miS : List Char) (amtS catS notesS : String) (t : Transaction)
    (y : Int)
    (hd : '/' ∉ dS) (hm : '/' ∉ mS) (hy : '/' ∉ yS)
    (hh : ':' ∉ hS) (hmi : ':' ∉ miS)
    (hyv : pyInt ⟨yS⟩ = some y) (hyear : 1948 ≤ 2000 + y)
    (hok : parseRow [⟨dS ++ '/' :: (mS ++ '/' :: yS)⟩, ⟨hS ++ ':' :: miS⟩,
        amtS, catS, notesS] = .ok t) :
    ∃ (d m h mi : Int),
      pyInt ⟨dS⟩ = some d ∧ pyInt ⟨mS⟩ = some m ∧
      pyInt ⟨hS⟩ = some h ∧ pyInt ⟨miS⟩ = some mi ∧
      validCivil (2000 + y) m d h mi 0 = true ∧
      t.created_at = specLocalCivilToUTC y m d h mi := by
  have hdate : splitChar '/' (dS ++ '/' :: (mS ++ '/' :: yS)) = [dS, mS, yS] := by
    rw [splitChar_append '/' dS _ hd, splitChar_append '/' mS _ hm,
      splitChar_no_sep '/' yS hy]
  have htime : splitChar ':' (hS ++ ':' :: miS) = [hS, miS] := by
    rw [splitChar_append ':' hS _ hh, splitChar_no_sep ':' miS hmi]
  unfold parseRow at hok
  simp only [List.get?] at hok
  rw [hdate, htime] at hok
  simp only [] at hok
  rw [hyv] at hok
  cases hpm : pyInt ⟨mS⟩ with
  | none => rw [hpm] at hok; simp at hok
  | some m =>
  rw [hpm] at hok
  cases hpd : pyInt ⟨dS⟩ with
  | none => rw [hpd] at hok; simp at hok
  | some d =>
  rw [hpd] at hok
  cases hph : pyInt ⟨hS⟩ with
  | none => rw [hph] at hok; simp at hok
  | some h =>
  rw [hph] at hok
  cases hpmi : pyInt ⟨miS⟩ with
  | none => rw [hpmi] at hok; simp at hok
  | some mi =>
  rw [hpmi] at hok
  simp only [] at hok
  cases hmk : mkEdmontonUTC (2000 + y) m d h mi 0 with
  | none => rw [hmk] at hok; simp at hok
  | some ts =>
  rw [hmk] at hok
  simp only [] at hok
  cases hamt : parseAmountE amtS with
  | error e => rw [hamt] at hok; simp at hok
  | ok amount =>
  rw [hamt] at hok
  simp only [Except.ok.injEq] at hok
  unfold mkEdmontonUTC at hmk
  cases hv : validCivil (2000 + y) m d h mi 0 with
  | false => rw [hv] at hmk; simp at hmk
  | true =>
  rw [hv] at hmk
  simp only [if_true, Option.some.injEq] at hmk
  refine ⟨d, m, h, mi, rfl, rfl, rfl, rfl, hv, ?_⟩
  rw [← hok]
  show ts = specLocalCivilToUTC y m d h mi
  rw [← hmk]
  rfl

def tC4 : Transaction := ⟨1672954200, -(30864 / 25 : Rat), ⟨"Food", none⟩, "x"⟩

def tC4b : Transaction := ⟨1118867400, (2 : Rat), ⟨"Food", none⟩, "x"⟩

/-- Witness for C4, one row in each seasonal regime: row `05/01/23, 14:30`
(standard time, UTC-7) parses to `2023-01-05T21:30:00Z`, and row
`15/06/05, 14:30` (daylight time under the 1987–2006 rules, UTC-6) parses to
`2005-06-15T20:30:00Z`: the same local `14:30` became `21:30` resp. `20:30`
UTC. -/
theorem claim4_timestamp_is_zone_shifted_civil_witness :
    (∃ (d m h mi : Int),
      pyInt "05" = some d ∧ pyInt "01" = some m ∧
      pyInt "14" = some h ∧ pyInt "30" = some mi ∧
      validCivil (2000 + 23) m d h mi 0 = true ∧
      tC4.created_at = specLocalCivilToUTC 23 m d h mi) ∧
    (∃ (d m h mi : Int),
      pyInt "15" = some d ∧ pyInt "06" = some m ∧
      pyInt "14" = some h ∧ pyInt "30" = some mi ∧
      validCivil (2000 + 5) m d h mi 0 = true ∧
      tC4b.created_at = specLocalCivilToUTC 5 m d h mi) ∧
    specLocalCivilToUTC 23 1 5 14 30 = 1672954200 ∧
    Int.fdiv (Int.fmod 1672954200 86400) 3600 = 21 ∧
    Int.fdiv (Int.fmod (Int.fmod 1672954200 86400) 3600) 60 = 30 ∧
    specLocalCivilToUTC 5 6 15 14 30 = 1118867400 ∧
    Int.fdiv (Int.fmod 1118867400 86400) 3600 = 20 ∧
    Int.fdiv (Int.fmod (Int.fmod 1118867400 86400) 3600) 60 = 30 := by
  refine ⟨?_, ?_, by decide, by decide, by decide, by decide, by decide, by decide⟩
  · exact claim4_timestamp_is_zone_shifted_civil (strC "05") (strC "01") (strC "23")
      (strC "14") (strC "30") "-$1,234.56" "Food" "x" tC4 23
      (by decide) (by decide) (by decide) (by decide) (by decide)
      (by decide) (by decide)
      (by with_unfolding_all rfl)
  · exact claim4_timestamp_is_zone_shifted_civil (strC "15") (strC "06") (strC "05")
      (strC "14") (strC "30") "$2" "Food" "x" tC4b 5
      (by decide) (by decide) (by decide) (by decide) (by decide)
      (by decide) (by decide)
      (by with_unfolding_all rfl)

/-! ## C7 / C9: lemmas about the global `"+00:00" → "Z"` replacement -/

theorem isSegPre_refl_append (p : List Char) : ∀ (y : List Char),
    isSegPre p (p ++ y) = true := by
  induction p with
  | nil => intro y; rfl
  | cons c p' ih => intro y; simp [isSegPre, ih]

theorem isSegPre_length_le {p l : List Char} (h : isSegPre p l = true) :
    p.length ≤ l.length := by
  induction p generalizing l with
  | nil => simp
  | cons c p' ih =>
      cases l with
      | nil => cases h
      | cons d l' =>
          simp only [isSegPre, Bool.and_eq_true, decide_eq_true_eq] at h
          have := ih h.2
          simp only [List.length_cons]
          omega

theorem replaceAllAux_fuel_irrel : ∀ (f1 f2 : Nat) (l : List Char),
    l.length ≤ f1 → l.length ≤ f2 → replaceAllAux f1 l = replaceAllAux f2 l := by
  intro f1
  induction f1 with
  | zero =>
      intro f2 l h1 _
      have hl : l = [] := List.length_eq_zero.mp (Nat.le_zero.mp h1)
      subst hl
      cases f2 <;> rfl
  | succ f1' ih =>
      intro f2 l h1 h2
      cases l with
      | nil => cases f2 <;> rfl
      | cons c rest =>
          cases f2 with
          | zero => simp at h2
          | succ f2' =>
              unfold replaceAllAux
              by_cases hp : isSegPre patPlus (c :: rest) = true
              · rw [if_pos hp, if_pos hp]
                congr 1
                apply ih
                · simp only [List.length_drop, List.length_cons] at *
                  omega
                · simp only [List.length_drop, List.length_cons] at *
                  omega
              · rw [if_neg hp, if_neg hp]
                congr 1
                apply ih
                · simp only [List.length_cons] at h1
                  omega
                · simp only [List.length_cons] at h2
                  omega

theorem replaceAllChars_nil : replaceAllChars [] = [] := rfl

theorem replaceAllChars_cons (c : Char) (rest : List Char) :
    replaceAllChars (c :: rest) =
      if isSegPre patPlus (c :: rest) then 'Z' :: replaceAllChars ((c :: rest).drop 6)
      else c :: replaceAllChars rest := by
  show replaceAllAux (rest.length + 1) (c :: rest) = _
  unfold replaceAllAux
  by_cases hp : isSegPre patPlus (c :: rest) = true
  · rw [if_pos hp, if_pos hp]
    congr 1
    apply replaceAllAux_fuel_irrel
    · simp only [List.length_drop, List.length_cons]
      omega
    · simp [List.length_drop]
  · rw [if_neg hp, if_neg hp]
    rfl

theorem replaceAll_noplus_seg : ∀ (x z : List Char), '+' ∉ x →
    replaceAllChars (x ++ z) = x ++ replaceAllChars z := by
  intro x
  induction x with
  | nil => intro z _; rfl
  | cons c x' ih =>
      intro z hx
      have hc : ¬(c = '+') := fun e => hx (by rw [← e]; exact List.mem_cons_self _ _)
      have hpre : ¬(isSegPre patPlus (c :: (x' ++ z)) = true) := by
        intro hcon
        simp only [patPlus, isSegPre, Bool.and_eq_true, decide_eq_true_eq] at hcon
        exact hc hcon.1.symm
      rw [List.cons_append, replaceAllChars_cons, if_neg hpre, List.cons_append]
      rw [ih z (fun hm => hx (List.mem_cons_of_mem c hm))]

theorem replaceAll_pat_head : ∀ (y : List Char),
    replaceAllChars (patPlus ++ y) = 'Z' :: replaceAllChars y := by
  intro y
  rw [show patPlus ++ y = '+' :: (['0', '0', ':', '0', '0'] ++ y) from rfl]
  rw [replaceAllChars_cons,
    if_pos (show isSegPre patPlus ('+' :: (['0', '0', ':', '0', '0'] ++ y)) = true
      from isSegPre_refl_append patPlus y)]
  rfl

theorem replaceAll_noplus_id (y : List Char) (hy : '+' ∉ y) :
    replaceAllChars y = y := by
  have h := replaceAll_noplus_seg y [] hy
  simp only [List.append_nil, replaceAllChars_nil] at h
  exact h

/-- The replacement on one serialized-timestamp piece:
`x ++ "+00:00" ++ B` becomes `x ++ "Z" ++ B` when the pattern occurs nowhere
else in the piece. -/
theorem replaceAll_ts_piece (x B : List Char) (hx : '+' ∉ x) (hB : '+' ∉ B) :
    replaceAllChars (x ++ (patPlus ++ B)) = x ++ 'Z' :: B := by
  rw [replaceAll_noplus_seg x _ hx, replaceAll_pat_head, replaceAll_noplus_id B hB]

theorem isSegPre_append_long : ∀ (p x y : List Char), p.length ≤ x.length →
    isSegPre p (x ++ y) = isSegPre p x := by
  intro p
  induction p with
  | nil => intro x y _; rfl
  | cons a p' ih =>
      intro x y h
      cases x with
      | nil => simp at h
      | cons b x' =>
          simp only [List.cons_append, isSegPre]
          have hx : p'.length ≤ x'.length := by simpa using h
          rw [show x'.append y = x' ++ y from rfl, ih x' y hx]

theorem isSegPre_append_short_mem : ∀ (p x : List Char) (c : Char) (y : List Char),
    isSegPre p (x ++ c :: y) = true → x.length < p.length → c ∈ p := by
  intro p
  induction p with
  | nil => intro x c y _ hl; simp at hl
  | cons a p' ih =>
      intro x c y h hl
      cases x with
      | nil =>
          simp only [List.nil_append, isSegPre, Bool.and_eq_true, decide_eq_true_eq] at h
          exact List.mem_cons.mpr (Or.inl h.1.symm)
      | cons b x' =>
          simp only [List.cons_append, isSegPre, Bool.and_eq_true,
            decide_eq_true_eq] at h
          have := ih x' c y h.2 (by simpa using hl)
          exact List.mem_cons_of_mem a this

/-- No replacement crosses a piece boundary that opens with a `"`. -/
theorem replaceAll_append_quote : ∀ (n : Nat) (a b' : List Char), a.length ≤ n →
    replaceAllChars (a ++ '"' :: b') =
      replaceAllChars a ++ replaceAllChars ('"' :: b') := by
  intro n
  induction n with
  | zero =>
      intro a b' h
      have ha : a = [] := List.length_eq_zero.mp (Nat.le_zero.mp h)
      subst ha
      rfl
  | succ n ih =>
      intro a b' hlen
      cases a with
      | nil => rfl
      | cons c a' =>
          by_cases hp : isSegPre patPlus (c :: (a' ++ '"' :: b')) = true
          · have hlong : 6 ≤ (c :: a').length := by
              by_contra hshort
              push_neg at hshort
              have hmem : '"' ∈ patPlus := by
                refine isSegPre_append_short_mem patPlus (c :: a') '"' b' ?_ ?_
                · exact hp
                · simpa using hshort
              exact absurd hmem (by decide)
            have hpre' : isSegPre patPlus (c :: a') = true := by
              rw [← isSegPre_append_long patPlus (c :: a') ('"' :: b') hlong]
              exact hp
            rw [show (c :: a') ++ '"' :: b' = c :: (a' ++ '"' :: b') from rfl]
            rw [replaceAllChars_cons, if_pos hp,
              replaceAllChars_cons c a', if_pos hpre']
            have hdrop : (c :: (a' ++ '"' :: b')).drop 6 =
                ((c :: a').drop 6) ++ '"' :: b' := by
              rw [show c :: (a' ++ '"' :: b') = (c :: a') ++ '"' :: b' from rfl]
              exact List.drop_append_of_le_length hlong
            rw [hdrop, List.cons_append]
            congr 1
            apply ih
            simp only [List.length_drop, List.length_cons] at *
            omega
          · have hpre' : ¬(isSegPre patPlus (c :: a') = true) := by
              intro hcon
              apply hp
              show isSegPre patPlus ((c :: a') ++ '"' :: b') = true
              rw [isSegPre_append_long patPlus (c :: a') ('"' :: b')
                (isSegPre_length_le hcon)]
              exact hcon
            rw [show (c :: a') ++ '"' :: b' = c :: (a' ++ '"' :: b') from rfl]
            rw [replaceAllChars_cons, if_neg hp,
              replaceAllChars_cons c a', if_neg hpre', List.cons_append]
            congr 1
            apply ih
            simp only [List.length_cons] at hlen
            omega

theorem isSegPre_replaceAll_no_Z : ∀ (p : List Char), 'Z' ∉ p →
    ∀ (l : List Char), isSegPre p (replaceAllChars l) = true →
      isSegPre p l = true := by
  intro p
  induction p with
  | nil => intro _ l _; rfl
  | cons a p' ih =>
      intro hz l h
      cases l with
      | nil => rw [replaceAllChars_nil] at h; cases h
      | cons c rest =>
          rw [replaceAllChars_cons] at h
          by_cases hp : isSegPre patPlus (c :: rest) = true
          · rw [if_pos hp] at h
            simp only [isSegPre, Bool.and_eq_true, decide_eq_true_eq] at h
            exact absurd (List.mem_cons.mpr (Or.inl h.1.symm)) hz
          · rw [if_neg hp] at h
            simp only [isSegPre, Bool.and_eq_true, decide_eq_true_eq] at h
            have h2 := ih (fun hm => hz (List.mem_cons_of_mem a hm)) rest h.2
            simp [isSegPre, h.1, h2]

/-- After the replacement, no `"+00:00"` remains anywhere in the text. -/
theorem containsSeg_replaceAll_patPlus (l : List Char) :
    containsSeg patPlus (replaceAllChars l) = false := by
  suffices hmain : ∀ (n : Nat) (l : List Char), l.length ≤ n →
      containsSeg patPlus (replaceAllChars l) = false by
    exact hmain l.length l le_rfl
  intro n
  induction n with
  | zero =>
      intro l h
      have hl : l = [] := List.length_eq_zero.mp (Nat.le_zero.mp h)
      subst hl
      rfl
  | succ n ih =>
      intro l hl
      cases l with
      | nil => rfl
      | cons c rest =>
          rw [replaceAllChars_cons]
          by_cases hp : isSegPre patPlus (c :: rest) = true
          · rw [if_pos hp]
            rw [containsSeg]
            have hhead : isSegPre patPlus
                ('Z' :: replaceAllChars ((c :: rest).drop 6)) = false := by
              cases hres : isSegPre patPlus
                  ('Z' :: replaceAllChars ((c :: rest).drop 6)) with
              | false => rfl
              | true =>
                  simp only [patPlus, isSegPre, Bool.and_eq_true,
                    decide_eq_true_eq] at hres
                  cases hres.1
            rw [hhead]
            have htail := ih ((c :: rest).drop 6)
              (by simp only [List.length_drop, List.length_cons] at *; omega)
            rw [htail]
            rfl
          · rw [if_neg hp]
            rw [containsSeg]
            cases hh : isSegPre patPlus (c :: replaceAllChars rest) with
            | true =>
                have hfull : isSegPre patPlus (replaceAllChars (c :: rest)) = true := by
                  rw [replaceAllChars_cons, if_neg hp]
                  exact hh
                have := isSegPre_replaceAll_no_Z patPlus (by decide) _ hfull
                exact absurd this hp
            | false =>
                have htail := ih rest (by simp only [List.length_cons] at hl; omega)
                rw [htail]
                rfl

theorem containsSeg_of_decomp (f : List Char) (hf : f ≠ []) : ∀ (a b : List Char),
    containsSeg f (a ++ f ++ b) = true := by
  intro a
  induction a with
  | nil =>
      intro b
      cases hfc : f with
      | nil => exact absurd hfc hf
      | cons c f' =>
          rw [show ([] : List Char) ++ (c :: f') ++ b = c :: (f' ++ b) from by simp]
          rw [containsSeg]
          have hpre : isSegPre (c :: f') (c :: (f' ++ b)) = true := by
            have h := isSegPre_refl_append (c :: f') b
            simpa using h
          rw [hpre]
          rfl
  | cons x a' ih =>
      intro b
      rw [show (x :: a') ++ f ++ b = x :: (a' ++ f ++ b) from by simp]
      rw [containsSeg, ih b]
      simp

theorem containsSeg_of_parts (f l : List Char) (hf : f ≠ [])
    (h : ∃ a b, l = a ++ f ++ b) : containsSeg f l = true := by
  obtain ⟨a, b, rfl⟩ := h
  exact containsSeg_of_decomp f hf a b

theorem replaceAll_flatten_quote : ∀ (ps : List (List Char)),
    (∀ p ∈ ps, ∃ r, p = '"' :: r) →
    replaceAllChars ps.flatten = (ps.map replaceAllChars).flatten := by
  intro ps
  induction ps with
  | nil => intro _; rfl
  | cons p ps' ih =>
      intro h
      rw [List.flatten_cons, List.map_cons, List.flatten_cons]
      cases ps' with
      | nil => simp
      | cons q qs =>
          obtain ⟨rq, hq⟩ := h q (List.mem_cons_of_mem p (List.mem_cons_self q qs))
          have hflat : (q :: qs).flatten = '"' :: (rq ++ qs.flatten) := by
            rw [List.flatten_cons, hq, List.cons_append]
          rw [hflat, replaceAll_append_quote p.length p _ le_rfl, ← hflat,
            ih (fun x hx => h x (List.mem_cons_of_mem p hx))]

/-! ### Digit characters are never `+` -/

theorem digitChar_ne_plus (n : Nat) : digitChar n ≠ '+' := by
  unfold digitChar
  split <;> decide

theorem natDigitsAux_no_plus : ∀ (fuel n : Nat), '+' ∉ natDigitsAux fuel n := by
  intro fuel
  induction fuel with
  | zero => intro n h; cases h
  | succ f ih =>
      intro n
      unfold natDigitsAux
      by_cases h : n < 10
      · rw [if_pos h]
        intro hm
        exact digitChar_ne_plus n (List.mem_singleton.mp hm).symm
      · rw [if_neg h]
        intro hm
        rcases List.mem_append.mp hm with h1 | h2
        · exact ih _ h1
        · exact digitChar_ne_plus _ (List.mem_singleton.mp h2).symm

theorem pad_no_plus (w n : Nat) : '+' ∉ padLeftDigits w (natDigits n) := by
  intro hm
  rcases List.mem_append.mp hm with h1 | h2
  · exact absurd (List.eq_of_mem_replicate h1) (by decide)
  · exact natDigitsAux_no_plus (n + 1) n h2

theorem plusNotin_sep_pad (c : Char) (hc : ¬('+' = c)) (w n : Nat) :
    '+' ∉ c :: padLeftDigits w (natDigits n) := by
  intro hm
  rcases List.mem_cons.mp hm with h | h
  · exact hc h
  · exact pad_no_plus w n h

theorem isoUTC_no_plus (t : DT) : '+' ∉ isoUTC t := by
  unfold isoUTC
  intro hm
  rcases List.mem_append.mp hm with hm | h
  · rcases List.mem_append.mp hm with hm | h
    · rcases List.mem_append.mp hm with hm | h
      · rcases List.mem_append.mp hm with hm | h
        · rcases List.mem_append.mp hm with hm | h
          · exact pad_no_plus 4 _ hm
          · exact plusNotin_sep_pad '-' (by decide) _ _ h
        · exact plusNotin_sep_pad '-' (by decide) _ _ h
      · exact plusNotin_sep_pad 'T' (by decide) _ _ h
    · exact plusNotin_sep_pad ':' (by decide) _ _ h
  · exact plusNotin_sep_pad ':' (by decide) _ _ h

/-! ### The serialized `created_at` fragments -/

/-- The rendered form of one `created_at` field after the replacement:
`"created_at": "<iso>Z"`. -/
def caFragZ (v : DT) : List Char :=
  '"' :: (strC "created_at\": \"" ++ isoUTC v ++ ['Z', '"'])

theorem caFragZ_ne_nil (v : DT) : caFragZ v ≠ [] := by
  simp [caFragZ]

theorem replaceAll_caPiece (v : DT) (piece B rb : List Char) (hB : '+' ∉ B)
    (hrb : B = '"' :: rb)
    (hpiece : piece =
      ('"' :: (strC "created_at\": \"" ++ isoUTC v)) ++ (patPlus ++ B)) :
    replaceAllChars piece = caFragZ v ++ rb := by
  have hx : '+' ∉ ('"' :: (strC "created_at\": \"" ++ isoUTC v)) := by
    intro hm
    rcases List.mem_cons.mp hm with h | hm2
    · exact absurd h (by decide)
    rcases List.mem_append.mp hm2 with h | h
    · revert h; decide
    · exact isoUTC_no_plus v h
  rw [hpiece, replaceAll_ts_piece _ B hx hB, hrb]
  show ('"' :: (strC "created_at\": \"" ++ isoUTC v)) ++ 'Z' :: '"' :: rb =
    caFragZ v ++ rb
  simp [caFragZ]

/-! ### Piece bookkeeping -/

theorem txPieces_startQ (b : Bool) (r : TxRow) :
    ∀ p ∈ txPieces b r, ∃ rr, p = '"' :: rr := by
  intro p hp
  simp only [txPieces, List.mem_cons, List.not_mem_nil, or_false] at hp
  rcases hp with rfl | rfl | rfl | rfl | rfl | rfl <;> exact ⟨_, rfl⟩

theorem catPieces_startQ (b : Bool) (c : String × DT) :
    ∀ p ∈ catPieces b c, ∃ rr, p = '"' :: rr := by
  intro p hp
  simp only [catPieces, List.mem_cons, List.not_mem_nil, or_false] at hp
  rcases hp with rfl | rfl <;> exact ⟨_, rfl⟩

theorem txsPieces_startQ : ∀ (rows : List TxRow) (p : List Char),
    p ∈ txsPieces rows → ∃ rr, p = '"' :: rr := by
  intro rows
  induction rows with
  | nil => intro p hp; cases hp
  | cons r rows' ih =>
      intro p hp
      cases rows' with
      | nil => exact txPieces_startQ true r p hp
      | cons r1 rows'' =>
          rw [show txsPieces (r :: r1 :: rows'') =
            txPieces false r ++ txsPieces (r1 :: rows'') from rfl] at hp
          rcases List.mem_append.mp hp with h | h
          · exact txPieces_startQ false r p h
          · exact ih p h

theorem catsPieces_startQ : ∀ (cs : List (String × DT)) (p : List Char),
    p ∈ catsPieces cs → ∃ rr, p = '"' :: rr := by
  intro cs
  induction cs with
  | nil => intro p hp; cases hp
  | cons c cs' ih =>
      intro p hp
      cases cs' with
      | nil => exact catPieces_startQ true c p hp
      | cons c1 cs'' =>
          rw [show catsPieces (c :: c1 :: cs'') =
            catPieces false c ++ catsPieces (c1 :: cs'') from rfl] at hp
          rcases List.mem_append.mp hp with h | h
          · exact catPieces_startQ false c p h
          · exact ih p h

theorem docPieces_startQ (txs : List TxRow) (cats : List (String × DT)) :
    ∀ p ∈ docPieces txs cats, ∃ rr, p = '"' :: rr := by
  intro p hp
  unfold docPieces at hp
  rcases List.mem_append.mp hp with h | h
  · by_cases ht : txs.isEmpty
    · rw [if_pos ht] at h
      rw [List.mem_singleton.mp h]
      exact ⟨_, rfl⟩
    · rw [if_neg ht] at h
      rcases List.mem_cons.mp h with rfl | h2
      · exact ⟨_, rfl⟩
      · exact txsPieces_startQ txs p h2
  · by_cases hc : cats.isEmpty
    · rw [if_pos hc] at h
      rw [List.mem_singleton.mp h]
      exact ⟨_, rfl⟩
    · rw [if_neg hc] at h
      rcases List.mem_cons.mp h with rfl | h2
      · exact ⟨_, rfl⟩
      · exact catsPieces_startQ cats p h2

theorem replaceAll_docChars (txs : List TxRow) (cats : List (String × DT)) :
    replaceAllChars (docChars txs cats) =
      strC "\x7b\n  " ++ ((docPieces txs cats).map replaceAllChars).flatten := by
  unfold docChars
  rw [replaceAll_noplus_seg (strC "\x7b\n  ") _ (by decide)]
  rw [replaceAll_flatten_quote _ (docPieces_startQ txs cats)]

theorem txsPieces_sub : ∀ (rows : List TxRow) (r : TxRow), r ∈ rows →
    ∃ b : Bool, ∀ p ∈ txPieces b r, p ∈ txsPieces rows := by
  intro rows
  induction rows with
  | nil => intro r h; cases h
  | cons r0 rows' ih =>
      intro r hr
      cases rows' with
      | nil =>
          rcases List.mem_cons.mp hr with rfl | h'
          · exact ⟨true, fun p hp => hp⟩
          · cases h'
      | cons r1 rows'' =>
          rcases List.mem_cons.mp hr with rfl | h'
          · refine ⟨false, fun p hp => ?_⟩
            rw [show txsPieces (r :: r1 :: rows'') =
              txPieces false r ++ txsPieces (r1 :: rows'') from rfl]
            exact List.mem_append_left _ hp
          · obtain ⟨b, hb⟩ := ih r h'
            refine ⟨b, fun p hp => ?_⟩
            rw [show txsPieces (r0 :: r1 :: rows'') =
              txPieces false r0 ++ txsPieces (r1 :: rows'') from rfl]
            exact List.mem_append_right _ (hb p hp)

theorem mem_docPieces_of_txsPieces (txs : List TxRow) (cats : List (String × DT))
    (hne : txs ≠ []) (p : List Char) (hp : p ∈ txsPieces txs) :
    p ∈ docPieces txs cats := by
  unfold docPieces
  have hempty : txs.isEmpty = false := by
    cases txs with
    | nil => exact absurd rfl hne
    | cons a b => rfl
  rw [hempty]
  simp only [Bool.false_eq_true, if_false]
  exact List.mem_append_left _ (List.mem_cons_of_mem _ hp)

theorem containsSeg_doc_of_piece (txs : List TxRow) (cats : List (String × DT))
    (p : List Char) (hp : p ∈ docPieces txs cats)
    (f rest : List Char) (hf : f ≠ [])
    (hrepl : replaceAllChars p = f ++ rest) :
    containsSeg f (replaceAllChars (docChars txs cats)) = true := by
  rw [replaceAll_docChars txs cats]
  have hmapmem : replaceAllChars p ∈ (docPieces txs cats).map replaceAllChars :=
    List.mem_map.mpr ⟨p, hp, rfl⟩
  obtain ⟨s1, s2, hsplit⟩ := List.append_of_mem hmapmem
  rw [hsplit]
  apply containsSeg_of_parts f _ hf
  refine ⟨strC "\x7b\n  " ++ s1.flatten, rest ++ s2.flatten, ?_⟩
  rw [List.flatten_append, List.flatten_cons, hrepl]
  simp

theorem forall₂_mem_right {α β : Type} {R : α → β → Prop} :
    ∀ {xs : List α} {ys : List β}, List.Forall₂ R xs ys →
      ∀ {b : β}, b ∈ ys → ∃ a, a ∈ xs ∧ R a b := by
  intro xs ys h
  induction h with
  | nil => intro b hb; cases hb
  | @cons x y xs ys hR htail ih =>
      intro b hb
      rcases List.mem_cons.mp hb with rfl | hb'
      · exact ⟨x, List.mem_cons_self x xs, hR⟩
      · obtain ⟨a, ha, hRa⟩ := ih hb'
        exact ⟨a, List.mem_cons_of_mem x ha, hRa⟩

theorem set_default_lookup (l : Transactions) :
    ∀ u ∈ set_default_category_created_ats l,
      u.category.created_at = lookupName (buildEarliest l []) u.category.name := by
  intro u hu
  obtain ⟨t0, ht0, rfl⟩ := List.mem_map.mp hu
  rfl

/-- C7 — every `created_at` value in the serialized JSON is an ISO-8601 UTC
timestamp ending in a literal `Z`: the fragment `"created_at": "<iso>Z"`
appears for each transaction's timestamp and for its category's aggregated
timestamp (the same text the `categories` array carries), and the substring
`+00:00` occurs nowhere in the document. -/
theorem claim7_created_at_Z_never_offset (l : Transactions) (s : String)
    (hs : reprJson l = some s) :
    containsSeg patPlus s.data = false ∧
    ∀ t ∈ set_default_category_created_ats l,
      containsSeg (caFragZ t.created_at) s.data = true ∧
      ∀ v, t.category.created_at = some v →
        containsSeg (caFragZ v) s.data = true := by
  obtain ⟨cr, hcr⟩ := Option.isSome_iff_exists.mp (catRowsOf_isSome l)
  obtain ⟨tr, htr⟩ := Option.isSome_iff_exists.mp (txRowsOf_isSome l cr hcr)
  have hsval : s.data = replaceAllChars (docChars tr cr) := by
    unfold reprJson at hs
    rw [hcr] at hs
    simp only [] at hs
    rw [htr] at hs
    simp only [Option.some.injEq] at hs
    rw [← hs]
  constructor
  · rw [hsval]
    exact containsSeg_replaceAll_patPlus _
  · intro t ht
    have hf₂ := optMapM_eq_some_forall₂ _ _ _ htr
    obtain ⟨r, hrmem, hrel⟩ := forall₂_mem_left hf₂ ht
    cases hfind : cr.find? (fun p => p.1 == t.category.name) with
    | none => rw [hfind] at hrel; cases hrel
    | some cd =>
    rw [hfind] at hrel
    simp only [Option.map_some', Option.some.injEq] at hrel
    cases hrel
    have hcd_mem : cd ∈ cr := List.mem_of_find?_eq_some hfind
    have hcd_name : cd.1 = t.category.name := by
      have hq := List.find?_some hfind
      simpa using hq
    have hcr₂ := optMapM_eq_some_forall₂ _ _ _ hcr
    obtain ⟨c, hcmem, hcrel⟩ := forall₂_mem_right hcr₂ hcd_mem
    cases hcc : c.created_at with
    | none => rw [hcc] at hcrel; cases hcrel
    | some vc =>
    rw [hcc] at hcrel
    simp only [Option.map_some', Option.some.injEq] at hcrel
    obtain ⟨u, hu, hueq⟩ := List.mem_map.mp hcmem
    have hulook := set_default_lookup l u hu
    rw [hueq] at hulook
    have htlook := set_default_lookup l t ht
    have hlook_vc : lookupName (buildEarliest l []) t.category.name = some vc := by
      have h2 : t.category.name = c.name := by
        rw [← hcd_name, ← hcrel]
      rw [h2, ← hulook, hcc]
    have htc : t.category.created_at = some vc := by rw [htlook, hlook_vc]
    have htrne : tr ≠ [] := fun he => by rw [he] at hrmem; cases hrmem
    obtain ⟨b, hb⟩ := txsPieces_sub tr _ hrmem
    have hp3mem : ('"' :: (strC "created_at\": \"" ++ isoUTC cd.2 ++ patPlus ++
        strC "\"\n      \x7d,\n      ")) ∈
          txPieces b (TxRow.mk cd.1 cd.2 t.notes t.amount t.created_at) :=
      List.mem_cons_of_mem _ (List.mem_cons_of_mem _ (List.mem_cons_self _ _))
    have hp6mem : ('"' :: (strC "created_at\": \"" ++ isoUTC t.created_at ++ patPlus ++
        strC "\"\n    \x7d" ++
        (if b then strC "\n  ],\n  " else strC ",\n    \x7b\n      "))) ∈
          txPieces b (TxRow.mk cd.1 cd.2 t.notes t.amount t.created_at) :=
      List.mem_cons_of_mem _ (List.mem_cons_of_mem _ (List.mem_cons_of_mem _
        (List.mem_cons_of_mem _ (List.mem_cons_of_mem _ (List.mem_cons_self _ _)))))
    have hrepl3 := replaceAll_caPiece cd.2
      ('"' :: (strC "created_at\": \"" ++ isoUTC cd.2 ++ patPlus ++
        strC "\"\n      \x7d,\n      "))
      (strC "\"\n      \x7d,\n      ") (strC "\n      \x7d,\n      ")
      (by decide) rfl (by simp)
    have hrepl6 := replaceAll_caPiece t.created_at
      ('"' :: (strC "created_at\": \"" ++ isoUTC t.created_at ++ patPlus ++
        strC "\"\n    \x7d" ++
        (if b then strC "\n  ],\n  " else strC ",\n    \x7b\n      ")))
      (strC "\"\n    \x7d" ++ (if b then strC "\n  ],\n  " else strC ",\n    \x7b\n      "))
      (strC "\n    \x7d" ++ (if b then strC "\n  ],\n  " else strC ",\n    \x7b\n      "))
      (by cases b <;> decide) (by cases b <;> rfl) (by simp)
    refine ⟨?_, ?_⟩
    · rw [hsval]
      exact containsSeg_doc_of_piece tr cr _
        (mem_docPieces_of_txsPieces tr cr htrne _ (hb _ hp6mem))
        (caFragZ t.created_at) _ (caFragZ_ne_nil _) hrepl6
    · intro v hv
      rw [htc] at hv
      cases hv
      rw [hsval, show vc = cd.2 from congrArg Prod.snd hcrel]
      exact containsSeg_doc_of_piece tr cr _
        (mem_docPieces_of_txsPieces tr cr htrne _ (hb _ hp3mem))
        (caFragZ cd.2) _ (caFragZ_ne_nil _) hrepl3

def ledgerC7 : Transactions := [⟨100, 1, ⟨"Food", none⟩, "a"⟩]

/-- Witness for C7 at a concrete ledger: the document carries the
`"created_at": "1970-01-01T00:01:40Z"` fragment and no `+00:00`. -/
theorem claim7_created_at_Z_never_offset_witness :
    containsSeg patPlus ((reprJson ledgerC7).getD "").data = false ∧
    containsSeg (caFragZ 100) ((reprJson ledgerC7).getD "").data = true := by
  have hs : reprJson ledgerC7 = some ((reprJson ledgerC7).getD "") := by
    with_unfolding_all rfl
  have h := claim7_created_at_Z_never_offset ledgerC7 _ hs
  exact ⟨h.1, (h.2 (⟨100, 1, ⟨"Food", some 100⟩, "a"⟩ : Transaction) (by decide)).1⟩

def ledgerC9 : Transactions :=
  [⟨0, 1, ⟨"Caf+00:00e", none⟩, "met at +00:00 spot"⟩]

set_option maxRecDepth 100000 in
/-- C9 — the `"+00:00" → "Z"` substitution of line 130 applies to the whole
rendered text, not only timestamps: for this ledger whose note and category
name contain `+00:00`, the serialized description and name fields carry `Z`
in its place. -/
theorem claim9_replace_applies_to_text_fields :
    ∃ s, reprJson ledgerC9 = some s ∧
      containsSeg (strC "\"description\": \"met at Z spot\"") s.data = true ∧
      containsSeg (strC "\"name\": \"CafZe\"") s.data = true ∧
      containsSeg (strC "met at +00:00 spot") s.data = false := by
  refine ⟨(reprJson ledgerC9).getD "", ?_, ?_, ?_, ?_⟩ <;> with_unfolding_all rfl

end ECU
